import Mathlib

/-!
A verification of the version-resolution and caching subsystem of
`src/modules/utils/npm.js` (the npm registry client of unpkg).

Modelling conventions:
* JavaScript strings are `String` / `List Char`; all arithmetic is on
  `Nat` / `Int` (no machine integers occur in the source).
* JSON documents are the inductive `Json`, with numbers as exact decimal
  `mantissa × 10^exponent` pairs.  ECMAScript guarantees that
  `JSON.parse (JSON.stringify v)` recovers every number value exactly, so
  the exact-decimal model captures the value-level behaviour without
  floating-point reasoning.
* Collaborator libraries (`JSON`, `encodeURIComponent`, `lru-cache`,
  `semver`) are modelled from their documented behaviour; the module's own
  functions are translated clause by clause from the source.
* Asynchronous calls are modelled by passing the upstream HTTP outcome
  (`Upstream`) and the cache state explicitly; a rejected promise becomes
  an `Except.error` result.
-/

namespace Unpkg

/-- Opening curly bracket character (written via its code point). -/
def obrace : Char := Char.ofNat 123

/-- Closing curly bracket character (written via its code point). -/
def cbrace : Char := Char.ofNat 125

/-- A JSON value.  Numbers are exact decimals `mantissa * 10 ^ exponent`;
object fields are kept in document order, as JavaScript objects preserve
insertion order for the string keys appearing here. -/
inductive Json where
  | null
  | bool (b : Bool)
  | num (mantissa : Int) (exponent : Int)
  | str (s : String)
  | arr (items : List Json)
  | obj (fields : List (String × Json))

/-- JavaScript truthiness of a parsed JSON value (`!info` tests in the
source): `null`, `false`, `0` and `""` are falsy, everything else truthy. -/
def Json.truthy : Json → Bool
  | .null => false
  | .bool b => b
  | .num m _ => !(m == 0)
  | .str s => !(s == "")
  | .arr _ => true
  | .obj _ => true

/-! ## Rendering (the model of `JSON.stringify`) -/

/-- The decimal digit character for `d < 10`. -/
def digitChar (d : Nat) : Char := Char.ofNat (48 + d)

/-- Decimal digit characters of `n`, most significant first; the first
argument is recursion fuel (any `fuel > n` yields the full numeral). -/
def natChars : Nat → Nat → List Char
  | 0, _ => []
  | fuel + 1, n =>
    if n < 10 then [digitChar n]
    else natChars fuel (n / 10) ++ [digitChar (n % 10)]

/-- The decimal numeral of `n`, as characters. -/
def natDecimal (n : Nat) : List Char := natChars (n + 1) n

/-- The decimal numeral of an integer: optional minus sign, then digits. -/
def intChars (i : Int) : List Char :=
  if i < 0 then '-' :: natDecimal i.natAbs else natDecimal i.natAbs

/-- The lower-case hexadecimal digit character for `d < 16`. -/
def hexChar (d : Nat) : Char :=
  if d < 10 then Char.ofNat (48 + d) else Char.ofNat (87 + d)

/-- How `JSON.stringify` emits one character of a string value: `"` and `\`
get a backslash, the five short control escapes are used when they exist,
any other control character is emitted as a `\u00xx` escape, and everything
else is emitted verbatim. -/
def escapeJChar (c : Char) : List Char :=
  if c = '"' then ['\\', '"']
  else if c = '\\' then ['\\', '\\']
  else if c = Char.ofNat 8 then ['\\', 'b']
  else if c = '\t' then ['\\', 't']
  else if c = '\n' then ['\\', 'n']
  else if c = Char.ofNat 12 then ['\\', 'f']
  else if c = Char.ofNat 13 then ['\\', 'r']
  else if c.toNat < 32 then
    ['\\', 'u', '0', '0', hexChar (c.toNat / 16), hexChar (c.toNat % 16)]
  else [c]

/-- A rendered string literal: quote, escaped characters, quote. -/
def writeStr (s : String) : List Char :=
  '"' :: (s.toList.flatMap escapeJChar ++ ['"'])

/-- A rendered number: the mantissa numeral, then `e` and the exponent
numeral when the exponent is nonzero. -/
def writeNum (m e : Int) : List Char :=
  intChars m ++ (if e = 0 then [] else 'e' :: intChars e)

mutual

/-- Render a JSON value to characters (compact form, as `JSON.stringify`
with no spacing argument). -/
def jwrite : Json → List Char
  | .num m e => writeNum m e
  | .str s => writeStr s
  | .arr items => '[' :: (jwriteItems items ++ [']'])
  | .obj fields => obrace :: (jwriteFields fields ++ [cbrace])
  | .null => 'n' :: ['u', 'l', 'l']
  | .bool true => 't' :: ['r', 'u', 'e']
  | .bool false => 'f' :: ['a', 'l', 's', 'e']

/-- Render array items, comma separated. -/
def jwriteItems : List Json → List Char
  | [] => []
  | j :: rest => jwrite j ++ jwriteItemsTail rest

/-- Render the remaining array items, each preceded by a comma. -/
def jwriteItemsTail : List Json → List Char
  | [] => []
  | j :: rest => ',' :: (jwrite j ++ jwriteItemsTail rest)

/-- Render object fields, comma separated, each as `"key":value`. -/
def jwriteFields : List (String × Json) → List Char
  | [] => []
  | (k, v) :: rest => writeStr k ++ ':' :: (jwrite v ++ jwriteFieldsTail rest)

/-- Render the remaining object fields, each preceded by a comma. -/
def jwriteFieldsTail : List (String × Json) → List Char
  | [] => []
  | (k, v) :: rest => ',' :: (writeStr k ++ ':' :: (jwrite v ++ jwriteFieldsTail rest))

end

/-- The model of `JSON.stringify` on a value, as a `String`. -/
def jsonStringify (j : Json) : String := String.mk (jwrite j)

/-! ## Parsing (the model of `JSON.parse`) -/

/-- JSON insignificant whitespace. -/
def isWsChar (c : Char) : Bool := c == ' ' || c == '\t' || c == '\n' || c == Char.ofNat 13

/-- Drop leading JSON whitespace. -/
def skipWs : List Char → List Char
  | [] => []
  | c :: cs => if isWsChar c then skipWs cs else c :: cs

/-- Decimal digit test. -/
def isDigitChar (c : Char) : Bool := 48 ≤ c.toNat && c.toNat ≤ 57

/-- Split a leading run of decimal digits off the input. -/
def grabDigits : List Char → List Char × List Char
  | [] => ([], [])
  | c :: cs =>
    if isDigitChar c then
      let (ds, rest) := grabDigits cs
      (c :: ds, rest)
    else ([], c :: cs)

/-- The number denoted by a digit run (most significant first). -/
def digitsVal (ds : List Char) : Nat :=
  ds.foldl (fun acc c => acc * 10 + (c.toNat - 48)) 0

/-- The value of one hexadecimal digit character, if it is one. -/
def hexNibble (c : Char) : Option Nat :=
  if 48 ≤ c.toNat && c.toNat ≤ 57 then some (c.toNat - 48)
  else if 97 ≤ c.toNat && c.toNat ≤ 102 then some (c.toNat - 87)
  else if 65 ≤ c.toNat && c.toNat ≤ 70 then some (c.toNat - 55)
  else none

/-- The character named by a short escape, if any. -/
def shortEscape (c : Char) : Option Char :=
  if c = '"' then some '"'
  else if c = '\\' then some '\\'
  else if c = '/' then some '/'
  else if c = 'b' then some (Char.ofNat 8)
  else if c = 't' then some '\t'
  else if c = 'n' then some '\n'
  else if c = 'f' then some (Char.ofNat 12)
  else if c = 'r' then some (Char.ofNat 13)
  else none

/-- Read a string body after the opening quote, producing the decoded string
and the input after the closing quote.  `acc` holds decoded characters in
reverse.  Control characters must be escaped; `\uXXXX` and the eight short
escapes are recognised, as in `JSON.parse`. -/
def readStrBody (acc : List Char) : List Char → Option (String × List Char)
  | [] => none
  | c :: rest =>
    if c = '"' then some (String.mk acc.reverse, rest)
    else if c = '\\' then
      match rest with
      | [] => none
      | e :: rest2 =>
        if e = 'u' then
          match rest2 with
          | h1 :: h2 :: h3 :: h4 :: rest3 =>
            match hexNibble h1, hexNibble h2, hexNibble h3, hexNibble h4 with
            | some a, some b, some v3, some v4 =>
              readStrBody (Char.ofNat (((a * 16 + b) * 16 + v3) * 16 + v4) :: acc) rest3
            | _, _, _, _ => none
          | _ => none
        else
          match shortEscape e with
          | some c2 => readStrBody (c2 :: acc) rest2
          | none => none
    else if c.toNat < 32 then none
    else readStrBody (c :: acc) rest

/-- Split an optional leading minus sign off the input. -/
def minusSplit (cs : List Char) : Bool × List Char :=
  match cs with
  | [] => (false, [])
  | c :: r => if c = '-' then (true, r) else (false, c :: r)

/-- Split an optional leading minus or plus sign off the input. -/
def expSignSplit (cs : List Char) : Bool × List Char :=
  match cs with
  | [] => (false, [])
  | c :: r => if c = '-' then (true, r) else if c = '+' then (false, r) else (false, c :: r)

/-- Read a signed exponent part after the `e`/`E` marker: optional sign,
then one-or-more digits. -/
def readExpTail (cs : List Char) : Option (Int × List Char) :=
  let p := expSignSplit cs
  let q := grabDigits p.2
  if q.1.isEmpty then none
  else some (if p.1 then -(digitsVal q.1 : Int) else (digitsVal q.1 : Int), q.2)

/-- Read an optional fraction part: either no leading `.`, or `.` followed
by one-or-more digits. -/
def readFracTail (cs : List Char) : Option (List Char × List Char) :=
  match cs with
  | [] => some ([], [])
  | c :: r =>
    if c = '.' then
      match grabDigits r with
      | ([], _) => none
      | (fds, r') => some (fds, r')
    else some ([], c :: r)

/-- Read an optional exponent part: either no leading `e`/`E`, or the
marker followed by a signed digit run. -/
def readExpPart (cs : List Char) : Option (Int × List Char) :=
  match cs with
  | [] => some (0, [])
  | c :: r => if c = 'e' || c = 'E' then readExpTail r else some (0, c :: r)

/-- Read a JSON number token: optional minus sign, integer digits with no
leading zero, optional fraction, optional exponent.  Returns the exact
decimal `(mantissa, exponent)` it denotes. -/
def readNum (cs : List Char) : Option ((Int × Int) × List Char) :=
  let p := minusSplit cs
  let q := grabDigits p.2
  match q.1 with
  | [] => none
  | d :: intDs =>
    if d == '0' && !intDs.isEmpty then none
    else
      match readFracTail q.2 with
      | none => none
      | some (fracDs, cs3) =>
        match readExpPart cs3 with
        | none => none
        | some (expon, cs4) =>
          let mag : Int := (digitsVal ((d :: intDs) ++ fracDs) : Int)
          let mant : Int := if p.1 then -mag else mag
          some ((mant, expon - (fracDs.length : Int)), cs4)

mutual

/-- Read one JSON value; the first argument is recursion fuel. -/
def readVal : Nat → List Char → Option (Json × List Char)
  | 0, _ => none
  | fuel + 1, cs =>
    match skipWs cs with
    | [] => none
    | c :: rest =>
      if c = 'n' then
        match rest with
        | e1 :: e2 :: e3 :: rest' =>
          if e1 == 'u' && e2 == 'l' && e3 == 'l' then some (.null, rest') else none
        | _ => none
      else if c = 't' then
        match rest with
        | e1 :: e2 :: e3 :: rest' =>
          if e1 == 'r' && e2 == 'u' && e3 == 'e' then some (.bool true, rest') else none
        | _ => none
      else if c = 'f' then
        match rest with
        | e1 :: e2 :: e3 :: e4 :: rest' =>
          if e1 == 'a' && e2 == 'l' && e3 == 's' && e4 == 'e' then
            some (.bool false, rest')
          else none
        | _ => none
      else if c = '"' then
        match readStrBody [] rest with
        | some (s, rest') => some (.str s, rest')
        | none => none
      else if c = '[' then
        match skipWs rest with
        | [] => none
        | c2 :: rest' =>
          if c2 = ']' then some (.arr [], rest')
          else
            match readItems fuel (c2 :: rest') with
            | some (items, rest'') => some (.arr items, rest'')
            | none => none
      else if c = obrace then
        match skipWs rest with
        | [] => none
        | c2 :: rest' =>
          if c2 = cbrace then some (.obj [], rest')
          else
            match readFields fuel (c2 :: rest') with
            | some (fields, rest'') => some (.obj fields, rest'')
            | none => none
      else if c = '-' || isDigitChar c then
        match readNum (c :: rest) with
        | some ((m, e), rest') => some (.num m e, rest')
        | none => none
      else none

/-- Read one-or-more comma-separated array items up to the closing `]`. -/
def readItems : Nat → List Char → Option (List Json × List Char)
  | 0, _ => none
  | fuel + 1, cs =>
    match readVal fuel cs with
    | none => none
    | some (j, rest) =>
      match skipWs rest with
      | [] => none
      | c :: rest' =>
        if c = ',' then
          match readItems fuel rest' with
          | some (items, rest'') => some (j :: items, rest'')
          | none => none
        else if c = ']' then some ([j], rest')
        else none

/-- Read one-or-more comma-separated object fields up to the closing brace. -/
def readFields : Nat → List Char → Option (List (String × Json) × List Char)
  | 0, _ => none
  | fuel + 1, cs =>
    match skipWs cs with
    | [] => none
    | c :: rest =>
      if c = '"' then
        match readStrBody [] rest with
        | none => none
        | some (key, rest1) =>
          match skipWs rest1 with
          | [] => none
          | c2 :: rest2 =>
            if c2 = ':' then
              match readVal fuel rest2 with
              | none => none
              | some (v, rest3) =>
                match skipWs rest3 with
                | [] => none
                | c3 :: rest4 =>
                  if c3 = ',' then
                    match readFields fuel rest4 with
                    | some (fields, rest5) => some ((key, v) :: fields, rest5)
                    | none => none
                  else if c3 = cbrace then some ([(key, v)], rest4)
                  else none
            else none
      else none

end

/-- The model of `JSON.parse`: read one value and require only whitespace
after it.  `none` models a thrown `SyntaxError`. -/
def jsonParse (s : String) : Option Json :=
  match readVal (s.toList.length + 1) s.toList with
  | some (j, rest) => if skipWs rest = [] then some j else none
  | none => none

/-! ## Round trip, part 1: numerals -/

theorem digitChar_toNat (d : Nat) (h : d < 10) : (digitChar d).toNat = 48 + d := by
  interval_cases d <;> decide

theorem isDigitChar_digitChar (d : Nat) (h : d < 10) : isDigitChar (digitChar d) = true := by
  interval_cases d <;> decide

theorem natChars_fuel : ∀ f g n : Nat, n < f → n < g → natChars f n = natChars g n := by
  intro f
  induction f with
  | zero => intro g n hf _; omega
  | succ f ih =>
    intro g n hf hg
    cases g with
    | zero => omega
    | succ g =>
      simp only [natChars]
      by_cases h10 : n < 10
      · simp [h10]
      · have hdiv : n / 10 < n := Nat.div_lt_self (by omega) (by omega)
        rw [if_neg h10, if_neg h10, ih g (n / 10) (by omega) (by omega)]

theorem natDecimal_step (n : Nat) :
    natDecimal n =
      if n < 10 then [digitChar n] else natDecimal (n / 10) ++ [digitChar (n % 10)] := by
  by_cases h : n < 10
  · simp [natDecimal, natChars, h]
  · have hdiv : n / 10 < n := Nat.div_lt_self (by omega) (by omega)
    rw [if_neg h]
    show natChars (n + 1) n = _
    rw [show natChars (n + 1) n =
      if n < 10 then [digitChar n] else natChars n (n / 10) ++ [digitChar (n % 10)] from rfl]
    rw [if_neg h, natChars_fuel n (n / 10 + 1) (n / 10) (by omega) (by omega)]
    rfl

theorem natDecimal_digits (n : Nat) : ∀ c ∈ natDecimal n, isDigitChar c = true := by
  induction n using Nat.strongRecOn with
  | _ n ih =>
    rw [natDecimal_step]
    by_cases h : n < 10
    · simpa [h] using isDigitChar_digitChar n h
    · rw [if_neg h]
      intro c hc
      rw [List.mem_append, List.mem_singleton] at hc
      cases hc with
      | inl hc => exact ih (n / 10) (Nat.div_lt_self (by omega) (by omega)) c hc
      | inr hc => exact hc ▸ isDigitChar_digitChar _ (Nat.mod_lt _ (by omega))

theorem natDecimal_cons (n : Nat) :
    ∃ c t, natDecimal n = c :: t ∧ isDigitChar c = true := by
  rcases h : natDecimal n with _ | ⟨c, t⟩
  · exfalso
    rw [natDecimal_step] at h
    by_cases h10 : n < 10
    · simp [h10] at h
    · simp [h10] at h
  · exact ⟨c, t, rfl, natDecimal_digits n c (h ▸ List.mem_cons_self c t)⟩

theorem natDecimal_head_pos (n : Nat) (hn : 1 ≤ n) :
    ∀ c t, natDecimal n = c :: t → c ≠ '0' := by
  induction n using Nat.strongRecOn with
  | _ n ih =>
    intro c t h
    rw [natDecimal_step] at h
    by_cases h10 : n < 10
    · rw [if_pos h10] at h
      injection h with h1 _
      subst h1
      interval_cases n <;> decide
    · rw [if_neg h10] at h
      obtain ⟨c2, t2, hc2, _⟩ := natDecimal_cons (n / 10)
      rw [hc2, List.cons_append] at h
      injection h with h1 _
      subst h1
      exact ih (n / 10) (Nat.div_lt_self (by omega) (by omega)) (by omega) c2 t2 hc2

theorem natDecimal_no_leading_zero (n : Nat) (c : Char) (t : List Char)
    (h : natDecimal n = c :: t) : c = '0' → t = [] := by
  intro hc
  by_cases hn : 1 ≤ n
  · exact absurd hc (natDecimal_head_pos n hn c t h)
  · have hz : n = 0 := by omega
    subst hz
    rw [natDecimal_step, if_pos (by omega)] at h
    injection h with _ h2
    exact h2.symm

theorem digitsVal_append_digit (ds : List Char) (c : Char) :
    digitsVal (ds ++ [c]) = digitsVal ds * 10 + (c.toNat - 48) := by
  simp [digitsVal, List.foldl_append]

theorem digitsVal_natDecimal (n : Nat) : digitsVal (natDecimal n) = n := by
  induction n using Nat.strongRecOn with
  | _ n ih =>
    rw [natDecimal_step]
    by_cases h : n < 10
    · rw [if_pos h]
      simp [digitsVal, digitChar_toNat n h]
    · rw [if_neg h, digitsVal_append_digit,
        ih (n / 10) (Nat.div_lt_self (by omega) (by omega)),
        digitChar_toNat _ (Nat.mod_lt _ (by omega))]
      omega

/-! ## Round trip, part 2: digit runs and the number token -/

/-- Input that cannot begin with another digit. -/
def digitStop (cs : List Char) : Bool :=
  match cs with
  | [] => true
  | c :: _ => !isDigitChar c

/-- Input that cannot extend a just-finished number token. -/
def tokenEnd (cs : List Char) : Bool :=
  match cs with
  | [] => true
  | c :: _ => !(isDigitChar c || c == '.' || c == 'e' || c == 'E')

theorem digitStop_of_tokenEnd (cs : List Char) (h : tokenEnd cs = true) :
    digitStop cs = true := by
  cases cs with
  | nil => rfl
  | cons c t =>
    simp only [tokenEnd, Bool.not_eq_true', Bool.or_eq_false_iff] at h
    simp [digitStop, h.1.1.1]

theorem grabDigits_stop (cs : List Char) (h : digitStop cs = true) :
    grabDigits cs = ([], cs) := by
  cases cs with
  | nil => rfl
  | cons c t =>
    simp only [digitStop, Bool.not_eq_true'] at h
    simp [grabDigits, h]

theorem grabDigits_run (ds : List Char) (hds : ∀ c ∈ ds, isDigitChar c = true)
    (rest : List Char) (hrest : digitStop rest = true) :
    grabDigits (ds ++ rest) = (ds, rest) := by
  induction ds with
  | nil => simpa using grabDigits_stop rest hrest
  | cons c t ih =>
    have hc : isDigitChar c = true := hds c (List.mem_cons_self c t)
    have ht := ih fun x hx => hds x (List.mem_cons_of_mem c hx)
    simp [grabDigits, hc, ht]

theorem digit_ne (c : Char) (h : isDigitChar c = true) (x : Char)
    (hx : isDigitChar x = false) : c ≠ x := by
  intro he
  rw [he, hx] at h
  exact Bool.noConfusion h

theorem digit_not_ws (c : Char) (h : isDigitChar c = true) : isWsChar c = false := by
  rcases hw : isWsChar c with _ | _
  · rfl
  · exfalso
    have hcase : ((c = ' ' ∨ c = '\t') ∨ c = '\n') ∨ c = Char.ofNat 13 := by
      simpa [isWsChar] using hw
    rcases hcase with ((rfl | rfl) | rfl) | rfl <;> exact absurd h (by decide)

theorem digit_char_facts (c : Char) (h : isDigitChar c = true) :
    c ≠ '-' ∧ c ≠ '+' ∧ c ≠ '.' ∧ c ≠ 'e' ∧ c ≠ 'E' ∧ isWsChar c = false ∧
      c ≠ ']' ∧ c ≠ cbrace ∧ c ≠ '"' ∧ c ≠ 'n' ∧ c ≠ 't' ∧ c ≠ 'f' ∧
      c ≠ '[' ∧ c ≠ obrace :=
  ⟨digit_ne c h '-' (by decide), digit_ne c h '+' (by decide),
   digit_ne c h '.' (by decide), digit_ne c h 'e' (by decide),
   digit_ne c h 'E' (by decide), digit_not_ws c h,
   digit_ne c h ']' (by decide), digit_ne c h cbrace (by decide),
   digit_ne c h '"' (by decide), digit_ne c h 'n' (by decide),
   digit_ne c h 't' (by decide), digit_ne c h 'f' (by decide),
   digit_ne c h '[' (by decide), digit_ne c h obrace (by decide)⟩

theorem minusSplit_digit (c : Char) (h : isDigitChar c = true) (t : List Char) :
    minusSplit (c :: t) = (false, c :: t) := by
  simp [minusSplit, (digit_char_facts c h).1]

theorem readFracTail_skip (cs : List Char) (h : tokenEnd cs = true ∨ digitStop cs = true ∧
    cs.head? ≠ some '.') : readFracTail cs = some ([], cs) := by
  cases cs with
  | nil => rfl
  | cons c t =>
    have hdot : c ≠ '.' := by
      cases h with
      | inl h =>
        simp only [tokenEnd, Bool.not_eq_true', Bool.or_eq_false_iff,
          beq_eq_false_iff_ne] at h
        exact h.1.1.2
      | inr h => simpa using h.2
    simp [readFracTail, hdot]

theorem readExpPart_skip (cs : List Char) (h : tokenEnd cs = true) :
    readExpPart cs = some (0, cs) := by
  cases cs with
  | nil => rfl
  | cons c t =>
    simp only [tokenEnd, Bool.not_eq_true', Bool.or_eq_false_iff,
      beq_eq_false_iff_ne] at h
    simp [readExpPart, h.1.2, h.2]

theorem readExpTail_intChars (e : Int) (rest : List Char) (h : digitStop rest = true) :
    readExpTail (intChars e ++ rest) = some (e, rest) := by
  obtain ⟨c, t, hc, hdig⟩ := natDecimal_cons e.natAbs
  have hrun : grabDigits (natDecimal e.natAbs ++ rest) = (natDecimal e.natAbs, rest) :=
    grabDigits_run _ (natDecimal_digits _) _ h
  have hne : (natDecimal e.natAbs).isEmpty = false := by rw [hc]; rfl
  by_cases he : e < 0
  · have harg : intChars e ++ rest = '-' :: (natDecimal e.natAbs ++ rest) := by
      simp [intChars, he]
    have hsign : expSignSplit (intChars e ++ rest) =
        (true, natDecimal e.natAbs ++ rest) := by
      rw [harg]; simp [expSignSplit]
    have hval : -(((e.natAbs : Nat) : Int)) = e := by omega
    have hval2 : -|e| = e := by rw [abs_of_neg he, neg_neg]
    simp [readExpTail, hsign, hrun, hne, digitsVal_natDecimal, hval, hval2]
  · have harg : intChars e ++ rest = natDecimal e.natAbs ++ rest := by
      simp [intChars, he]
    have hfacts := digit_char_facts c hdig
    have hsign : expSignSplit (natDecimal e.natAbs ++ rest) =
        (false, natDecimal e.natAbs ++ rest) := by
      rw [hc, List.cons_append]
      simp [expSignSplit, hfacts.1, hfacts.2.1]
    have hval : (((e.natAbs : Nat) : Int)) = e := by omega
    have hval2 : |e| = e := abs_of_nonneg (by omega)
    rw [harg]
    simp [readExpTail, hsign, hrun, hne, digitsVal_natDecimal, hval, hval2]

theorem readNum_write (m e : Int) (rest : List Char) (h : tokenEnd rest = true) :
    readNum (writeNum m e ++ rest) = some ((m, e), rest) := by
  obtain ⟨d, ds, hd, hdig⟩ := natDecimal_cons m.natAbs
  have hnolead := natDecimal_no_leading_zero m.natAbs d ds hd
  have hcheck : (d == '0' && !ds.isEmpty) = false := by
    by_cases hz : d = '0'
    · simp [hz, hnolead hz]
    · simp [hz]
  have hfacts := digit_char_facts d hdig
  -- the tail after the mantissa numeral: `rest` itself, or the exponent part
  set tail : List Char := if e = 0 then rest else 'e' :: (intChars e ++ rest) with htail
  have htstop : digitStop tail = true := by
    by_cases he : e = 0
    · simpa [htail, he] using digitStop_of_tokenEnd rest h
    · simp [htail, he, digitStop, isDigitChar]
  have hrun : grabDigits (natDecimal m.natAbs ++ tail) = (natDecimal m.natAbs, tail) :=
    grabDigits_run _ (natDecimal_digits _) _ htstop
  have hfrac : readFracTail tail = some ([], tail) := by
    by_cases he : e = 0
    · exact readFracTail_skip tail (by rw [htail, if_pos he]; exact Or.inl h)
    · rw [htail, if_neg he]
      simp [readFracTail]
  have hexp : readExpPart tail = some (e, rest) := by
    by_cases he : e = 0
    · rw [htail, if_pos he, readExpPart_skip rest h, he]
    · rw [htail, if_neg he]
      have hstep : readExpPart ('e' :: (intChars e ++ rest)) =
          readExpTail (intChars e ++ rest) := by simp [readExpPart]
      rw [hstep, readExpTail_intChars e rest (digitStop_of_tokenEnd rest h)]
  by_cases hm : m < 0
  · have harg : writeNum m e ++ rest = '-' :: (natDecimal m.natAbs ++ tail) := by
      by_cases he : e = 0 <;> simp [writeNum, intChars, he, hm, htail]
    have hsign : minusSplit (writeNum m e ++ rest) =
        (true, natDecimal m.natAbs ++ tail) := by
      rw [harg]; simp [minusSplit]
    have habs2 : -(((m.natAbs : Nat) : Int)) = m := by omega
    simp only [readNum, hsign]
    rw [hrun]
    dsimp only
    rw [hd]
    dsimp only
    rw [hcheck]
    rw [if_neg (by simp : ¬(false = true))]
    rw [hfrac]
    dsimp only
    rw [hexp]
    dsimp only
    rw [List.append_nil, ← hd, digitsVal_natDecimal]
    rw [habs2]
    norm_num
  · have harg : writeNum m e ++ rest = natDecimal m.natAbs ++ tail := by
      by_cases he : e = 0 <;> simp [writeNum, intChars, he, hm, htail]
    have hsign : minusSplit (writeNum m e ++ rest) =
        (false, natDecimal m.natAbs ++ tail) := by
      rw [harg, hd, List.cons_append]
      simp [minusSplit, hfacts.1]
    have habs2 : (((m.natAbs : Nat) : Int)) = m := by omega
    simp only [readNum, hsign]
    rw [hrun]
    dsimp only
    rw [hd]
    dsimp only
    rw [hcheck]
    rw [if_neg (by simp : ¬(false = true))]
    rw [hfrac]
    dsimp only
    rw [hexp]
    dsimp only
    rw [List.append_nil, ← hd, digitsVal_natDecimal]
    rw [habs2]
    norm_num

/-! ## Round trip, part 3: strings -/

theorem hexNibble_hexChar (d : Nat) (h : d < 16) : hexNibble (hexChar d) = some d := by
  interval_cases d <;> decide

theorem readStrBody_close (acc rest : List Char) :
    readStrBody acc ('\"' :: rest) = some (String.mk acc.reverse, rest) := by
  rw [readStrBody.eq_def]
  dsimp only
  rw [if_pos rfl]

theorem readStrBody_plain (acc : List Char) (c : Char) (rest : List Char)
    (h1 : ¬c = '\"') (h2 : ¬c = '\\') (h3 : ¬c.toNat < 32) :
    readStrBody acc (c :: rest) = readStrBody (c :: acc) rest := by
  rw [readStrBody.eq_def]
  dsimp only
  rw [if_neg h1, if_neg h2, if_neg h3]

theorem readStrBody_short (acc : List Char) (e c2 : Char) (rest : List Char)
    (he : ¬e = 'u') (hsc : shortEscape e = some c2) :
    readStrBody acc ('\\' :: e :: rest) = readStrBody (c2 :: acc) rest := by
  rw [readStrBody.eq_def]
  dsimp only
  rw [if_neg (show ¬('\\':Char) = '\"' by decide), if_pos (rfl : ('\\':Char) = '\\'),
    if_neg he, hsc]

theorem readStrBody_unicode (acc : List Char) (h1 h2 h3 h4 : Char) (rest : List Char)
    (v1 v2 v3 v4 : Nat) (e1 : hexNibble h1 = some v1) (e2 : hexNibble h2 = some v2)
    (e3 : hexNibble h3 = some v3) (e4 : hexNibble h4 = some v4) :
    readStrBody acc ('\\' :: 'u' :: h1 :: h2 :: h3 :: h4 :: rest) =
      readStrBody (Char.ofNat (((v1 * 16 + v2) * 16 + v3) * 16 + v4) :: acc) rest := by
  rw [readStrBody.eq_def]
  dsimp only
  rw [if_neg (show ¬('\\':Char) = '\"' by decide), if_pos (rfl : ('\\':Char) = '\\'),
    if_pos (rfl : ('u':Char) = 'u'), e1, e2, e3, e4]

theorem readStrBody_escape (c : Char) (acc rest : List Char) :
    readStrBody acc (escapeJChar c ++ rest) = readStrBody (c :: acc) rest := by
  by_cases h1 : c = '\"'
  · subst h1
    rw [show escapeJChar '\"' = ['\\', '\"'] from by decide, List.cons_append,
      List.cons_append, List.nil_append,
      readStrBody_short acc '\"' '\"' rest (by decide) (by decide)]
  by_cases h2 : c = '\\'
  · subst h2
    rw [show escapeJChar '\\' = ['\\', '\\'] from by decide, List.cons_append,
      List.cons_append, List.nil_append,
      readStrBody_short acc '\\' '\\' rest (by decide) (by decide)]
  by_cases h3 : c = Char.ofNat 8
  · subst h3
    rw [show escapeJChar (Char.ofNat 8) = ['\\', 'b'] from by decide, List.cons_append,
      List.cons_append, List.nil_append,
      readStrBody_short acc 'b' (Char.ofNat 8) rest (by decide) (by decide)]
  by_cases h4 : c = '\t'
  · subst h4
    rw [show escapeJChar '\t' = ['\\', 't'] from by decide, List.cons_append,
      List.cons_append, List.nil_append,
      readStrBody_short acc 't' '\t' rest (by decide) (by decide)]
  by_cases h5 : c = '\n'
  · subst h5
    rw [show escapeJChar '\n' = ['\\', 'n'] from by decide, List.cons_append,
      List.cons_append, List.nil_append,
      readStrBody_short acc 'n' '\n' rest (by decide) (by decide)]
  by_cases h6 : c = Char.ofNat 12
  · subst h6
    rw [show escapeJChar (Char.ofNat 12) = ['\\', 'f'] from by decide, List.cons_append,
      List.cons_append, List.nil_append,
      readStrBody_short acc 'f' (Char.ofNat 12) rest (by decide) (by decide)]
  by_cases h7 : c = Char.ofNat 13
  · subst h7
    rw [show escapeJChar (Char.ofNat 13) = ['\\', 'r'] from by decide, List.cons_append,
      List.cons_append, List.nil_append,
      readStrBody_short acc 'r' (Char.ofNat 13) rest (by decide) (by decide)]
  by_cases h8 : c.toNat < 32
  · have e1 : escapeJChar c =
        ['\\', 'u', '0', '0', hexChar (c.toNat / 16), hexChar (c.toNat % 16)] := by
      simp [escapeJChar, h1, h2, h3, h4, h5, h6, h7, h8]
    have hhi : hexNibble (hexChar (c.toNat / 16)) = some (c.toNat / 16) :=
      hexNibble_hexChar _ (by omega)
    have hlo : hexNibble (hexChar (c.toNat % 16)) = some (c.toNat % 16) :=
      hexNibble_hexChar _ (Nat.mod_lt _ (by omega))
    have hval : ((0 * 16 + 0) * 16 + c.toNat / 16) * 16 + c.toNat % 16 = c.toNat := by
      omega
    rw [e1]
    simp only [List.cons_append, List.nil_append]
    rw [readStrBody_unicode acc '0' '0' _ _ rest 0 0 _ _ (by decide) (by decide) hhi hlo]
    rw [hval, Char.ofNat_toNat]
  · have e1 : escapeJChar c = [c] := by
      simp [escapeJChar, h1, h2, h3, h4, h5, h6, h7, h8]
    rw [e1, List.cons_append, List.nil_append, readStrBody_plain acc c rest h1 h2 h8]

theorem readStrBody_chunk (cs : List Char) : ∀ acc rest : List Char,
    readStrBody acc (cs.flatMap escapeJChar ++ '"' :: rest) =
      some (String.mk (acc.reverse ++ cs), rest) := by
  induction cs with
  | nil =>
    intro acc rest
    simpa using readStrBody_close acc rest
  | cons c cs ih =>
    intro acc rest
    rw [List.flatMap_cons, List.append_assoc, readStrBody_escape, ih]
    simp

theorem readStrBody_write (s : String) (rest : List Char) :
    readStrBody [] (s.toList.flatMap escapeJChar ++ '"' :: rest) = some (s, rest) := by
  rw [readStrBody_chunk]
  rfl

/-! ## Round trip, part 4: value dispatch lemmas -/

theorem skipWs_cons (c : Char) (r : List Char) (h : isWsChar c = false) :
    skipWs (c :: r) = c :: r := by
  simp [skipWs, h]

theorem tokenEnd_cons (c : Char) (t : List Char)
    (h : (isDigitChar c || c == '.' || c == 'e' || c == 'E') = false) :
    tokenEnd (c :: t) = true := by
  simp only [tokenEnd, h, Bool.not_false]

theorem jwrite_head (j : Json) :
    ∃ c t, jwrite j = c :: t ∧ isWsChar c = false ∧ c ≠ ']' ∧ c ≠ cbrace := by
  cases j with
  | null =>
    refine ⟨'n', _, rfl, ?_, ?_, ?_⟩ <;> decide
  | bool b =>
    cases b
    · refine ⟨'f', _, rfl, ?_, ?_, ?_⟩ <;> decide
    · refine ⟨'t', _, rfl, ?_, ?_, ?_⟩ <;> decide
  | num m e =>
    by_cases hm : m < 0
    · refine ⟨'-', natDecimal m.natAbs ++ (if e = 0 then [] else 'e' :: intChars e), ?_,
        by decide, by decide, by decide⟩
      simp [jwrite, writeNum, intChars, hm]
    · obtain ⟨d, ds, hd, hdig⟩ := natDecimal_cons m.natAbs
      obtain ⟨_, _, _, _, _, hws, hbr, hbc, _⟩ := digit_char_facts d hdig
      refine ⟨d, ds ++ (if e = 0 then [] else 'e' :: intChars e), ?_, hws, hbr, hbc⟩
      simp [jwrite, writeNum, intChars, hm, hd]
  | str s =>
    refine ⟨'"', _, rfl, ?_, ?_, ?_⟩ <;> decide
  | arr items =>
    refine ⟨'[', _, rfl, ?_, ?_, ?_⟩ <;> decide
  | obj fields =>
    refine ⟨obrace, _, rfl, ?_, ?_, ?_⟩ <;> decide

theorem readVal_null_step (f : Nat) (rest : List Char) :
    readVal (f + 1) ('n' :: 'u' :: 'l' :: 'l' :: rest) = some (.null, rest) := by
  simp only [readVal]
  rw [skipWs_cons _ _ (by decide)]
  dsimp only
  rw [if_pos (rfl : ('n' : Char) = 'n'),
    if_pos (by decide : (('u' : Char) == 'u' && ('l' : Char) == 'l' && ('l' : Char) == 'l')
      = true)]

theorem readVal_true_step (f : Nat) (rest : List Char) :
    readVal (f + 1) ('t' :: 'r' :: 'u' :: 'e' :: rest) = some (.bool true, rest) := by
  simp only [readVal]
  rw [skipWs_cons _ _ (by decide)]
  dsimp only
  rw [if_neg (by decide : ¬('t' : Char) = 'n'), if_pos (rfl : ('t' : Char) = 't'),
    if_pos (by decide : (('r' : Char) == 'r' && ('u' : Char) == 'u' && ('e' : Char) == 'e')
      = true)]

theorem readVal_false_step (f : Nat) (rest : List Char) :
    readVal (f + 1) ('f' :: 'a' :: 'l' :: 's' :: 'e' :: rest) = some (.bool false, rest) := by
  simp only [readVal]
  rw [skipWs_cons _ _ (by decide)]
  dsimp only
  rw [if_neg (by decide : ¬('f' : Char) = 'n'), if_neg (by decide : ¬('f' : Char) = 't'),
    if_pos (rfl : ('f' : Char) = 'f'),
    if_pos (by decide :
      (('a' : Char) == 'a' && ('l' : Char) == 'l' && ('s' : Char) == 's'
        && ('e' : Char) == 'e') = true)]

theorem readVal_str_step (f : Nat) (s : String) (rest : List Char) :
    readVal (f + 1) (writeStr s ++ rest) = some (.str s, rest) := by
  have harg : writeStr s ++ rest = '"' :: (s.toList.flatMap escapeJChar ++ '"' :: rest) := by
    simp [writeStr]
  rw [harg]
  simp only [readVal]
  rw [skipWs_cons _ _ (by decide)]
  dsimp only
  rw [if_neg (by decide : ¬('"' : Char) = 'n'), if_neg (by decide : ¬('"' : Char) = 't'),
    if_neg (by decide : ¬('"' : Char) = 'f'), if_pos (rfl : ('"' : Char) = '"'),
    readStrBody_write]

theorem readVal_num_step (f : Nat) (m e : Int) (rest : List Char)
    (h : tokenEnd rest = true) :
    readVal (f + 1) (writeNum m e ++ rest) = some (.num m e, rest) := by
  by_cases hm : m < 0
  · have hw : writeNum m e ++ rest =
        '-' :: ((natDecimal m.natAbs ++ (if e = 0 then [] else 'e' :: intChars e)) ++ rest) := by
      simp [writeNum, intChars, hm]
    rw [hw]
    simp only [readVal]
    rw [skipWs_cons _ _ (by decide)]
    dsimp only
    rw [if_neg (by decide : ¬('-' : Char) = 'n'), if_neg (by decide : ¬('-' : Char) = 't'),
      if_neg (by decide : ¬('-' : Char) = 'f'), if_neg (by decide : ¬('-' : Char) = '"'),
      if_neg (by decide : ¬('-' : Char) = '['), if_neg (by decide : ¬('-' : Char) = obrace),
      if_pos (by decide : (decide (('-' : Char) = '-') || isDigitChar '-') = true)]
    rw [show '-' :: ((natDecimal m.natAbs ++ (if e = 0 then [] else 'e' :: intChars e)) ++ rest)
        = writeNum m e ++ rest from hw.symm, readNum_write m e rest h]
  · obtain ⟨d, ds, hd, hdig⟩ := natDecimal_cons m.natAbs
    obtain ⟨_, _, _, _, _, hws, _, _, hq, hn, ht, hf, hbk, hob⟩ := digit_char_facts d hdig
    have hw : writeNum m e ++ rest =
        d :: ((ds ++ (if e = 0 then [] else 'e' :: intChars e)) ++ rest) := by
      simp [writeNum, intChars, hm, hd]
    rw [hw]
    simp only [readVal]
    rw [skipWs_cons _ _ hws]
    dsimp only
    rw [if_neg hn, if_neg ht, if_neg hf, if_neg hq, if_neg hbk, if_neg hob,
      if_pos (by simp [hdig] : (decide (d = '-') || isDigitChar d) = true)]
    rw [show d :: ((ds ++ (if e = 0 then [] else 'e' :: intChars e)) ++ rest)
        = writeNum m e ++ rest from hw.symm, readNum_write m e rest h]

theorem readVal_arr_nil_step (f : Nat) (rest : List Char) :
    readVal (f + 1) ('[' :: ']' :: rest) = some (.arr [], rest) := by
  simp only [readVal]
  rw [skipWs_cons _ _ (by decide)]
  dsimp only
  rw [if_neg (by decide : ¬('[' : Char) = 'n'), if_neg (by decide : ¬('[' : Char) = 't'),
    if_neg (by decide : ¬('[' : Char) = 'f'), if_neg (by decide : ¬('[' : Char) = '"'),
    if_pos (rfl : ('[' : Char) = '['), skipWs_cons _ _ (by decide)]
  dsimp only
  rw [if_pos (rfl : (']' : Char) = ']')]

theorem readVal_obj_nil_step (f : Nat) (rest : List Char) :
    readVal (f + 1) (obrace :: cbrace :: rest) = some (.obj [], rest) := by
  simp only [readVal]
  rw [skipWs_cons _ _ (by decide)]
  dsimp only
  rw [if_neg (by decide : ¬obrace = 'n'), if_neg (by decide : ¬obrace = 't'),
    if_neg (by decide : ¬obrace = 'f'), if_neg (by decide : ¬obrace = '"'),
    if_neg (by decide : ¬obrace = '['), if_pos (rfl : obrace = obrace),
    skipWs_cons _ _ (by decide)]
  dsimp only
  rw [if_pos (rfl : cbrace = cbrace)]

/-! ## Round trip, part 5: the full codec -/

theorem read_write_all : ∀ fuel : Nat,
    (∀ j rest, (jwrite j).length < fuel → tokenEnd rest = true →
      readVal fuel (jwrite j ++ rest) = some (j, rest)) ∧
    (∀ item items rest, (jwriteItems (item :: items)).length + 1 < fuel →
      readItems fuel (jwriteItems (item :: items) ++ ']' :: rest) =
        some (item :: items, rest)) ∧
    (∀ fd fds rest, (jwriteFields (fd :: fds)).length + 1 < fuel →
      readFields fuel (jwriteFields (fd :: fds) ++ cbrace :: rest) =
        some (fd :: fds, rest)) := by
  intro fuel
  induction fuel using Nat.strongRecOn with
  | _ fuel ih =>
  cases fuel with
  | zero =>
    refine ⟨?_, ?_, ?_⟩ <;> (intros; omega)
  | succ f =>
    obtain ⟨ihv, ihi, ihf⟩ := ih f (Nat.lt_succ_self f)
    refine ⟨?_, ?_, ?_⟩
    · -- a single value
      intro j rest hlen hrest
      cases j with
      | null =>
        rw [show jwrite Json.null ++ rest = 'n' :: 'u' :: 'l' :: 'l' :: rest from rfl]
        exact readVal_null_step f rest
      | bool b =>
        cases b with
        | true =>
          rw [show jwrite (Json.bool true) ++ rest = 't' :: 'r' :: 'u' :: 'e' :: rest from rfl]
          exact readVal_true_step f rest
        | false =>
          rw [show jwrite (Json.bool false) ++ rest
              = 'f' :: 'a' :: 'l' :: 's' :: 'e' :: rest from rfl]
          exact readVal_false_step f rest
      | num m e =>
        rw [show jwrite (Json.num m e) = writeNum m e from rfl]
        exact readVal_num_step f m e rest hrest
      | str s =>
        rw [show jwrite (Json.str s) = writeStr s from rfl]
        exact readVal_str_step f s rest
      | arr items =>
        cases items with
        | nil =>
          rw [show jwrite (Json.arr []) ++ rest = '[' :: ']' :: rest from rfl]
          exact readVal_arr_nil_step f rest
        | cons e es =>
          have harg : jwrite (Json.arr (e :: es)) ++ rest
              = '[' :: (jwriteItems (e :: es) ++ ']' :: rest) := by
            simp [jwrite]
          rw [harg]
          simp only [readVal]
          rw [skipWs_cons _ _ (by decide)]
          dsimp only
          rw [if_neg (by decide : ¬('[' : Char) = 'n'),
            if_neg (by decide : ¬('[' : Char) = 't'),
            if_neg (by decide : ¬('[' : Char) = 'f'),
            if_neg (by decide : ¬('[' : Char) = '"'),
            if_pos (rfl : ('[' : Char) = '[')]
          obtain ⟨c0, t0, hc0, hws0, hbr0, _⟩ := jwrite_head e
          have hitems : jwriteItems (e :: es) ++ ']' :: rest
              = c0 :: (t0 ++ jwriteItemsTail es ++ ']' :: rest) := by
            simp [jwriteItems, hc0]
          rw [hitems, skipWs_cons _ _ hws0]
          dsimp only
          rw [if_neg hbr0, ← hitems]
          have hfl : (jwriteItems (e :: es)).length + 1 < f := by
            have hlen2 : (jwrite (Json.arr (e :: es))).length
                = (jwriteItems (e :: es)).length + 2 := by
              simp [jwrite]
            omega
          rw [ihi e es rest hfl]
      | obj fields =>
        cases fields with
        | nil =>
          rw [show jwrite (Json.obj []) ++ rest = obrace :: cbrace :: rest from rfl]
          exact readVal_obj_nil_step f rest
        | cons fd fds =>
          obtain ⟨k, v⟩ := fd
          have harg : jwrite (Json.obj ((k, v) :: fds)) ++ rest
              = obrace :: (jwriteFields ((k, v) :: fds) ++ cbrace :: rest) := by
            simp [jwrite]
          rw [harg]
          simp only [readVal]
          rw [skipWs_cons _ _ (by decide)]
          dsimp only
          rw [if_neg (by decide : ¬obrace = 'n'), if_neg (by decide : ¬obrace = 't'),
            if_neg (by decide : ¬obrace = 'f'), if_neg (by decide : ¬obrace = '"'),
            if_neg (by decide : ¬obrace = '['), if_pos (rfl : obrace = obrace)]
          have hfhead : jwriteFields ((k, v) :: fds) ++ cbrace :: rest
              = '"' :: (k.toList.flatMap escapeJChar
                  ++ '"' :: (':' :: (jwrite v ++ (jwriteFieldsTail fds ++ cbrace :: rest)))) := by
            simp [jwriteFields, writeStr]
          rw [hfhead, skipWs_cons _ _ (by decide)]
          dsimp only
          rw [if_neg (by decide : ¬('"' : Char) = cbrace), ← hfhead]
          have hfl : (jwriteFields ((k, v) :: fds)).length + 1 < f := by
            have hlen2 : (jwrite (Json.obj ((k, v) :: fds))).length
                = (jwriteFields ((k, v) :: fds)).length + 2 := by
              simp [jwrite]
            omega
          rw [ihf (k, v) fds rest hfl]
    · -- a nonempty item list
      intro item items rest hlen
      have hlen1 : (jwrite item).length < f := by
        have : (jwriteItems (item :: items)).length
            = (jwrite item).length + (jwriteItemsTail items).length := by
          simp [jwriteItems]
        omega
      have harg : jwriteItems (item :: items) ++ ']' :: rest
          = jwrite item ++ (jwriteItemsTail items ++ ']' :: rest) := by
        simp [jwriteItems]
      have htok : tokenEnd (jwriteItemsTail items ++ ']' :: rest) = true := by
        cases items with
        | nil => exact tokenEnd_cons ']' rest (by decide)
        | cons j2 js =>
          rw [show jwriteItemsTail (j2 :: js) ++ ']' :: rest
              = ',' :: ((jwrite j2 ++ jwriteItemsTail js) ++ ']' :: rest) from by
            simp [jwriteItemsTail]]
          exact tokenEnd_cons ',' _ (by decide)
      simp only [readItems]
      rw [harg, ihv item _ hlen1 htok]
      dsimp only
      cases items with
      | nil =>
        rw [show jwriteItemsTail ([] : List Json) ++ ']' :: rest = ']' :: rest from rfl,
          skipWs_cons _ _ (by decide)]
        dsimp only
        rw [if_neg (by decide : ¬(']' : Char) = ','), if_pos (rfl : (']' : Char) = ']')]
      | cons j2 js =>
        rw [show jwriteItemsTail (j2 :: js) ++ ']' :: rest
            = ',' :: (jwriteItems (j2 :: js) ++ ']' :: rest) from by
          simp [jwriteItemsTail, jwriteItems]]
        rw [skipWs_cons _ _ (by decide)]
        dsimp only
        rw [if_pos (rfl : (',' : Char) = ',')]
        have hfl2 : (jwriteItems (j2 :: js)).length + 1 < f := by
          have h1 : (jwriteItems (item :: j2 :: js)).length
              = (jwrite item).length + 1 + (jwriteItems (j2 :: js)).length := by
            simp [jwriteItems, jwriteItemsTail]
            omega
          omega
        rw [ihi j2 js rest hfl2]
    · -- a nonempty field list
      intro fd fds rest hlen
      obtain ⟨k, v⟩ := fd
      have hwslen : 2 ≤ (writeStr k).length := by
        simp [writeStr]
      have hlenv : (jwrite v).length < f := by
        have : (jwriteFields ((k, v) :: fds)).length
            = (writeStr k).length + 1 + (jwrite v).length
              + (jwriteFieldsTail fds).length := by
          simp [jwriteFields]
          omega
        omega
      have harg : jwriteFields ((k, v) :: fds) ++ cbrace :: rest
          = '"' :: (k.toList.flatMap escapeJChar
              ++ '"' :: (':' :: (jwrite v ++ (jwriteFieldsTail fds ++ cbrace :: rest)))) := by
        simp [jwriteFields, writeStr]
      have htok : tokenEnd (jwriteFieldsTail fds ++ cbrace :: rest) = true := by
        cases fds with
        | nil => exact tokenEnd_cons cbrace rest (by decide)
        | cons f2 fs2 =>
          obtain ⟨k2, v2⟩ := f2
          rw [show jwriteFieldsTail ((k2, v2) :: fs2) ++ cbrace :: rest
              = ',' :: ((writeStr k2 ++ ':' :: (jwrite v2 ++ jwriteFieldsTail fs2))
                  ++ cbrace :: rest) from by
            simp [jwriteFieldsTail]]
          exact tokenEnd_cons ',' _ (by decide)
      simp only [readFields]
      rw [harg, skipWs_cons _ _ (by decide)]
      dsimp only
      rw [if_pos (rfl : ('"' : Char) = '"'), readStrBody_write]
      dsimp only
      rw [skipWs_cons _ _ (by decide)]
      dsimp only
      rw [if_pos (rfl : (':' : Char) = ':'), ihv v _ hlenv htok]
      dsimp only
      cases fds with
      | nil =>
        rw [show jwriteFieldsTail ([] : List (String × Json)) ++ cbrace :: rest
            = cbrace :: rest from rfl, skipWs_cons _ _ (by decide)]
        dsimp only
        rw [if_neg (by decide : ¬cbrace = ','), if_pos (rfl : cbrace = cbrace)]
      | cons f2 fs2 =>
        obtain ⟨k2, v2⟩ := f2
        rw [show jwriteFieldsTail ((k2, v2) :: fs2) ++ cbrace :: rest
            = ',' :: (jwriteFields ((k2, v2) :: fs2) ++ cbrace :: rest) from by
          simp [jwriteFieldsTail, jwriteFields]]
        rw [skipWs_cons _ _ (by decide)]
        dsimp only
        rw [if_pos (rfl : (',' : Char) = ',')]
        have hfl2 : (jwriteFields ((k2, v2) :: fs2)).length + 1 < f := by
          have h1 : (jwriteFields ((k, v) :: (k2, v2) :: fs2)).length
              = (writeStr k).length + 1 + (jwrite v).length + 1
                + (jwriteFields ((k2, v2) :: fs2)).length := by
            simp [jwriteFields, jwriteFieldsTail]
            omega
          omega
        rw [ihf (k2, v2) fs2 rest hfl2]

/-- Parsing a stringified value recovers it exactly. -/
theorem jsonParse_stringify (j : Json) : jsonParse (jsonStringify j) = some j := by
  have h := (read_write_all ((jwrite j).length + 1)).1 j [] (by omega) rfl
  rw [List.append_nil] at h
  show (match readVal ((jwrite j).length + 1) (jwrite j) with
    | some (v, rest) => if skipWs rest = [] then some v else none
    | none => none) = some j
  rw [h]
  rfl

/-! ## The semver collaborator: versions

The `semver` npm library is an external collaborator of the module under
verification.  It is modelled from its documented behaviour: version
parsing (`X.Y.Z-pre+build`, optional leading `v`, numeric identifiers
without leading zeros), precedence comparison, and range satisfaction for
the comparator grammar (`=`, `<`, `<=`, `>`, `>=`, `^`, `~`, `*`,
alternatives joined by `||`).  Partial x-range forms (`1.x`, `1.2`) and
hyphen ranges are outside the model; an unparsable range makes
`maxSatisfying` return `none`, as `semver.maxSatisfying` does for an
invalid range. -/

/-- One dot-separated prerelease identifier: numeric or alphanumeric. -/
inductive PreId where
  | numId (n : Nat)
  | alnumId (s : List Char)
deriving DecidableEq

/-- A parsed semantic version (build metadata is validated but dropped, as
it never takes part in precedence). -/
structure SemVer where
  major : Nat
  minor : Nat
  patch : Nat
  pre : List PreId
deriving DecidableEq

/-- A strict numeric component: digits only, no leading zero. -/
def parseNatStrict (cs : List Char) : Option (Nat × List Char) :=
  match grabDigits cs with
  | ([], _) => none
  | (d :: ds, rest) =>
    if d == '0' && !ds.isEmpty then none
    else some (digitsVal (d :: ds), rest)

/-- Expect one specific character. -/
def expectChar (c : Char) (cs : List Char) : Option (List Char) :=
  match cs with
  | [] => none
  | x :: r => if x = c then some r else none

/-- A character allowed in prerelease / build identifiers. -/
def isIdentChar (c : Char) : Bool :=
  isDigitChar c || (65 ≤ c.toNat && c.toNat ≤ 90) || (97 ≤ c.toNat && c.toNat ≤ 122)
    || c == '-'

/-- Split a leading run of identifier characters off the input. -/
def grabIdent : List Char → List Char × List Char
  | [] => ([], [])
  | c :: cs =>
    if isIdentChar c then
      let p := grabIdent cs
      (c :: p.1, p.2)
    else ([], c :: cs)

/-- Classify one prerelease identifier: numeric identifiers (no leading
zero) compare numerically, every other nonempty identifier lexically. -/
def classifyId (ds : List Char) : Option PreId :=
  match ds with
  | [] => none
  | d :: tl =>
    if (d :: tl).all isDigitChar then
      if d == '0' && !tl.isEmpty then none else some (.numId (digitsVal (d :: tl)))
    else some (.alnumId (d :: tl))

/-- Read the dot-separated prerelease identifier list (fuel-bounded). -/
def parsePreLoop : Nat → List Char → Option (List PreId × List Char)
  | 0, _ => none
  | f + 1, cs =>
    let p := grabIdent cs
    match classifyId p.1 with
    | none => none
    | some pid =>
      match p.2 with
      | '.' :: r2 =>
        match parsePreLoop f r2 with
        | some (l, r3) => some (pid :: l, r3)
        | none => none
      | _ => some ([pid], p.2)

/-- Read and discard the dot-separated build identifier list. -/
def parseBuildLoop : Nat → List Char → Option (List Char)
  | 0, _ => none
  | f + 1, cs =>
    let p := grabIdent cs
    if p.1.isEmpty then none
    else
      match p.2 with
      | '.' :: r2 => parseBuildLoop f r2
      | _ => some p.2

/-- Parse a full semantic version from characters (optional leading `v`). -/
def parseVersionChars (cs0 : List Char) : Option SemVer :=
  let cs := match cs0 with
    | c :: r => if c = 'v' then r else c :: r
    | [] => []
  match parseNatStrict cs with
  | none => none
  | some (maj, cs1) =>
    match expectChar '.' cs1 with
    | none => none
    | some cs2 =>
      match parseNatStrict cs2 with
      | none => none
      | some (minV, cs3) =>
        match expectChar '.' cs3 with
        | none => none
        | some cs4 =>
          match parseNatStrict cs4 with
          | none => none
          | some (pat, cs5) =>
            match cs5 with
            | [] => some ⟨maj, minV, pat, []⟩
            | c :: r =>
              if c = '-' then
                match parsePreLoop (r.length + 1) r with
                | none => none
                | some (pre, cs6) =>
                  match cs6 with
                  | [] => some ⟨maj, minV, pat, pre⟩
                  | c2 :: r2 =>
                    if c2 = '+' then
                      match parseBuildLoop (r2.length + 1) r2 with
                      | some [] => some ⟨maj, minV, pat, pre⟩
                      | _ => none
                    else none
              else if c = '+' then
                match parseBuildLoop (r.length + 1) r with
                | some [] => some ⟨maj, minV, pat, []⟩
                | _ => none
              else none

/-- The model of `semver` version parsing on a string. -/
def parseSemVer (s : String) : Option SemVer := parseVersionChars s.toList

/-! ## The semver collaborator: precedence -/

/-- Three-way comparison of naturals. -/
def cmpNats (a b : Nat) : Ordering :=
  if a < b then .lt else if b < a then .gt else .eq

/-- Lexicographic three-way comparison of character lists by code point
(the JavaScript `<` on strings, for the code points occurring here). -/
def cmpCharList : List Char → List Char → Ordering
  | [], [] => .eq
  | [], _ :: _ => .lt
  | _ :: _, [] => .gt
  | a :: as, b :: bs => (cmpNats a.toNat b.toNat).then (cmpCharList as bs)

/-- Identifier precedence: numeric compare numerically and rank below
alphanumeric; alphanumeric compare lexically. -/
def cmpPreId : PreId → PreId → Ordering
  | .numId a, .numId b => cmpNats a b
  | .numId _, .alnumId _ => .lt
  | .alnumId _, .numId _ => .gt
  | .alnumId a, .alnumId b => cmpCharList a b

/-- Identifier-list precedence: elementwise, a strict prefix ranks lower. -/
def cmpIdList : List PreId → List PreId → Ordering
  | [], [] => .eq
  | [], _ :: _ => .lt
  | _ :: _, [] => .gt
  | a :: as, b :: bs => (cmpPreId a b).then (cmpIdList as bs)

/-- Prerelease precedence: a version without prerelease ranks above any
prerelease of the same version triple. -/
def cmpPre : List PreId → List PreId → Ordering
  | [], [] => .eq
  | [], _ :: _ => .gt
  | _ :: _, [] => .lt
  | a :: as, b :: bs => cmpIdList (a :: as) (b :: bs)

/-- Semantic-version precedence (the model of `semver.compare`). -/
def cmpSemVer (a b : SemVer) : Ordering :=
  (cmpNats a.major b.major).then
    ((cmpNats a.minor b.minor).then
      ((cmpNats a.patch b.patch).then (cmpPre a.pre b.pre)))

/-! ## Precedence is a total order -/

theorem then_eq_lt (o1 o2 : Ordering) :
    o1.then o2 = .lt ↔ o1 = .lt ∨ (o1 = .eq ∧ o2 = .lt) := by
  cases o1 <;> simp [Ordering.then]

theorem then_eq_eq (o1 o2 : Ordering) :
    o1.then o2 = .eq ↔ o1 = .eq ∧ o2 = .eq := by
  cases o1 <;> simp [Ordering.then]

theorem then_swap (o1 o2 : Ordering) : (o1.then o2).swap = o1.swap.then o2.swap := by
  cases o1 <;> cases o2 <;> rfl

theorem cmpNats_lt_iff (a b : Nat) : cmpNats a b = .lt ↔ a < b := by
  unfold cmpNats
  by_cases h1 : a < b <;> by_cases h2 : b < a <;> simp [h1, h2] <;> omega

theorem cmpNats_eq_iff (a b : Nat) : cmpNats a b = .eq ↔ a = b := by
  unfold cmpNats
  by_cases h1 : a < b <;> by_cases h2 : b < a <;> simp [h1, h2] <;> omega

theorem cmpNats_swap (a b : Nat) : (cmpNats a b).swap = cmpNats b a := by
  unfold cmpNats
  by_cases h1 : a < b <;> by_cases h2 : b < a <;> simp [h1, h2, Ordering.swap] <;> omega

theorem charToNat_inj : Function.Injective Char.toNat :=
  StrictMono.injective fun _ _ h => h

theorem cmpCharList_eq_iff : ∀ as bs : List Char, cmpCharList as bs = .eq ↔ as = bs := by
  intro as
  induction as with
  | nil => intro bs; cases bs <;> simp [cmpCharList]
  | cons a as ih =>
    intro bs
    cases bs with
    | nil => simp [cmpCharList]
    | cons b bs =>
      simp [cmpCharList, then_eq_eq, cmpNats_eq_iff, ih, charToNat_inj.eq_iff]

theorem cmpCharList_swap : ∀ as bs : List Char,
    (cmpCharList as bs).swap = cmpCharList bs as := by
  intro as
  induction as with
  | nil => intro bs; cases bs <;> rfl
  | cons a as ih =>
    intro bs
    cases bs with
    | nil => rfl
    | cons b bs =>
      simp only [cmpCharList, then_swap, cmpNats_swap, ih]

theorem cmpCharList_trans : ∀ as bs cs : List Char,
    cmpCharList as bs = .lt → cmpCharList bs cs = .lt → cmpCharList as cs = .lt := by
  intro as
  induction as with
  | nil =>
    intro bs cs h1 h2
    cases bs with
    | nil => exact absurd h1 (by simp [cmpCharList])
    | cons b bs =>
      cases cs with
      | nil => exact absurd h2 (by simp [cmpCharList])
      | cons c cs => simp [cmpCharList]
  | cons a as ih =>
    intro bs cs h1 h2
    cases bs with
    | nil => exact absurd h1 (by simp [cmpCharList])
    | cons b bs =>
      cases cs with
      | nil => exact absurd h2 (by simp [cmpCharList])
      | cons c cs =>
        rw [cmpCharList, then_eq_lt] at h1 h2 ⊢
        rw [cmpNats_lt_iff] at *
        rw [cmpNats_eq_iff] at *
        rcases h1 with h1 | ⟨h1e, h1r⟩ <;> rcases h2 with h2 | ⟨h2e, h2r⟩
        · exact Or.inl (by omega)
        · exact Or.inl (by omega)
        · exact Or.inl (by omega)
        · exact Or.inr ⟨by omega, ih bs cs h1r h2r⟩

theorem cmpPreId_eq_iff (x y : PreId) : cmpPreId x y = .eq ↔ x = y := by
  cases x <;> cases y <;>
    simp [cmpPreId, cmpNats_eq_iff, cmpCharList_eq_iff]

theorem cmpPreId_swap (x y : PreId) : (cmpPreId x y).swap = cmpPreId y x := by
  cases x <;> cases y
  · exact cmpNats_swap _ _
  · rfl
  · rfl
  · exact cmpCharList_swap _ _

theorem cmpPreId_trans (x y z : PreId) (h1 : cmpPreId x y = .lt)
    (h2 : cmpPreId y z = .lt) : cmpPreId x z = .lt := by
  cases x <;> cases y <;> cases z <;> simp_all [cmpPreId, cmpNats_lt_iff]
  · omega
  · exact cmpCharList_trans _ _ _ h1 h2

theorem cmpIdList_eq_iff : ∀ xs ys : List PreId, cmpIdList xs ys = .eq ↔ xs = ys := by
  intro xs
  induction xs with
  | nil => intro ys; cases ys <;> simp [cmpIdList]
  | cons x xs ih =>
    intro ys
    cases ys with
    | nil => simp [cmpIdList]
    | cons y ys => simp [cmpIdList, then_eq_eq, cmpPreId_eq_iff, ih]

theorem cmpIdList_swap : ∀ xs ys : List PreId,
    (cmpIdList xs ys).swap = cmpIdList ys xs := by
  intro xs
  induction xs with
  | nil => intro ys; cases ys <;> rfl
  | cons x xs ih =>
    intro ys
    cases ys with
    | nil => rfl
    | cons y ys => simp only [cmpIdList, then_swap, cmpPreId_swap, ih]

theorem cmpIdList_trans : ∀ xs ys zs : List PreId,
    cmpIdList xs ys = .lt → cmpIdList ys zs = .lt → cmpIdList xs zs = .lt := by
  intro xs
  induction xs with
  | nil =>
    intro ys zs h1 h2
    cases ys with
    | nil => exact absurd h1 (by simp [cmpIdList])
    | cons y ys =>
      cases zs with
      | nil => exact absurd h2 (by simp [cmpIdList])
      | cons z zs => simp [cmpIdList]
  | cons x xs ih =>
    intro ys zs h1 h2
    cases ys with
    | nil => exact absurd h1 (by simp [cmpIdList])
    | cons y ys =>
      cases zs with
      | nil => exact absurd h2 (by simp [cmpIdList])
      | cons z zs =>
        rw [cmpIdList, then_eq_lt] at h1 h2 ⊢
        rcases h1 with h1 | ⟨h1e, h1r⟩ <;> rcases h2 with h2 | ⟨h2e, h2r⟩
        · exact Or.inl (cmpPreId_trans _ _ _ h1 h2)
        · rw [cmpPreId_eq_iff] at h2e
          exact Or.inl (h2e ▸ h1)
        · rw [cmpPreId_eq_iff] at h1e
          exact Or.inl (h1e ▸ h2)
        · rw [cmpPreId_eq_iff] at h1e h2e
          exact Or.inr ⟨by rw [cmpPreId_eq_iff]; rw [h1e, h2e], ih ys zs h1r h2r⟩

theorem cmpPre_eq_iff (xs ys : List PreId) : cmpPre xs ys = .eq ↔ xs = ys := by
  cases xs with
  | nil => cases ys <;> simp [cmpPre]
  | cons x xs =>
    cases ys with
    | nil => simp [cmpPre]
    | cons y ys => simp [cmpPre, cmpIdList_eq_iff]

theorem cmpPre_swap (xs ys : List PreId) : (cmpPre xs ys).swap = cmpPre ys xs := by
  cases xs with
  | nil => cases ys <;> rfl
  | cons x xs =>
    cases ys with
    | nil => rfl
    | cons y ys => simp only [cmpPre, cmpIdList_swap]

theorem cmpPre_trans (xs ys zs : List PreId) (h1 : cmpPre xs ys = .lt)
    (h2 : cmpPre ys zs = .lt) : cmpPre xs zs = .lt := by
  cases xs with
  | nil =>
    cases ys with
    | nil => exact absurd h1 (by simp [cmpPre])
    | cons y ys => exact absurd h1 (by simp [cmpPre])
  | cons x xs =>
    cases ys with
    | nil =>
      cases zs with
      | nil => exact absurd h2 (by simp [cmpPre])
      | cons z zs => exact absurd h2 (by simp [cmpPre])
    | cons y ys =>
      cases zs with
      | nil => simp [cmpPre]
      | cons z zs =>
        rw [cmpPre] at h1 h2 ⊢
        exact cmpIdList_trans _ _ _ h1 h2

theorem cmpSemVer_eq_iff (a b : SemVer) : cmpSemVer a b = .eq ↔ a = b := by
  obtain ⟨a1, a2, a3, a4⟩ := a
  obtain ⟨b1, b2, b3, b4⟩ := b
  simp [cmpSemVer, then_eq_eq, cmpNats_eq_iff, cmpPre_eq_iff, SemVer.mk.injEq, and_assoc]

theorem cmpSemVer_swap (a b : SemVer) : (cmpSemVer a b).swap = cmpSemVer b a := by
  unfold cmpSemVer
  rw [then_swap, then_swap, then_swap, cmpNats_swap, cmpNats_swap, cmpNats_swap,
    cmpPre_swap]

theorem lexThen_trans {α : Type} (f g : α → α → Ordering)
    (hf : ∀ x y z, f x y = .lt → f y z = .lt → f x z = .lt)
    (hfL : ∀ x y z, f x y = .eq → f x z = f y z)
    (hfR : ∀ x y z, f y z = .eq → f x z = f x y)
    (hgL : ∀ x y z, f x y = .eq → g x y = .lt → g y z = .lt → g x z = .lt) :
    ∀ x y z, (f x y).then (g x y) = .lt → (f y z).then (g y z) = .lt →
      (f x z).then (g x z) = .lt := by
  intro x y z h1 h2
  rw [then_eq_lt] at h1 h2 ⊢
  rcases h1 with h1 | ⟨h1e, h1r⟩ <;> rcases h2 with h2 | ⟨h2e, h2r⟩
  · exact Or.inl (hf _ _ _ h1 h2)
  · exact Or.inl (by rw [hfR x y z h2e]; exact h1)
  · exact Or.inl (by rw [hfL x y z h1e]; exact h2)
  · exact Or.inr ⟨by rw [hfL x y z h1e]; exact h2e, hgL x y z h1e h1r h2r⟩
theorem cmpNatsF_trans (p : SemVer → Nat) : ∀ x y z : SemVer,
    cmpNats (p x) (p y) = .lt → cmpNats (p y) (p z) = .lt →
      cmpNats (p x) (p z) = .lt := by
  intro x y z h1 h2
  rw [cmpNats_lt_iff] at h1 h2 ⊢
  omega

theorem cmpNatsF_eqL (p : SemVer → Nat) : ∀ x y z : SemVer,
    cmpNats (p x) (p y) = .eq → cmpNats (p x) (p z) = cmpNats (p y) (p z) := by
  intro x y z h
  rw [cmpNats_eq_iff] at h
  rw [h]

theorem cmpNatsF_eqR (p : SemVer → Nat) : ∀ x y z : SemVer,
    cmpNats (p y) (p z) = .eq → cmpNats (p x) (p z) = cmpNats (p x) (p y) := by
  intro x y z h
  rw [cmpNats_eq_iff] at h
  rw [h]

theorem cmpSemVer_trans : ∀ a b c : SemVer,
    cmpSemVer a b = .lt → cmpSemVer b c = .lt → cmpSemVer a c = .lt := by
  have l3 := lexThen_trans (fun x y : SemVer => cmpNats x.patch y.patch)
    (fun x y : SemVer => cmpPre x.pre y.pre)
    (cmpNatsF_trans (fun v => v.patch)) (cmpNatsF_eqL (fun v => v.patch))
    (cmpNatsF_eqR (fun v => v.patch))
    (fun x y z _ h1 h2 => cmpPre_trans _ _ _ h1 h2)
  have l2 := lexThen_trans (fun x y : SemVer => cmpNats x.minor y.minor)
    (fun x y : SemVer => (cmpNats x.patch y.patch).then (cmpPre x.pre y.pre))
    (cmpNatsF_trans (fun v => v.minor)) (cmpNatsF_eqL (fun v => v.minor))
    (cmpNatsF_eqR (fun v => v.minor))
    (fun x y z _ h1 h2 => l3 x y z h1 h2)
  have l1 := lexThen_trans (fun x y : SemVer => cmpNats x.major y.major)
    (fun x y : SemVer =>
      (cmpNats x.minor y.minor).then
        ((cmpNats x.patch y.patch).then (cmpPre x.pre y.pre)))
    (cmpNatsF_trans (fun v => v.major)) (cmpNatsF_eqL (fun v => v.major))
    (cmpNatsF_eqR (fun v => v.major))
    (fun x y z _ h1 h2 => l2 x y z h1 h2)
  exact fun a b c h1 h2 => l1 a b c h1 h2

theorem cmpSemVer_gt_iff_swap (a b : SemVer) :
    cmpSemVer a b = .gt ↔ cmpSemVer b a = .lt := by
  rw [← cmpSemVer_swap b a]
  cases cmpSemVer b a <;> simp [Ordering.swap]

/-! ## The semver collaborator on strings -/

/-- The model of `semver.lt` on strings.  `semver.lt` throws on an
unparsable version; the model returns `false` there, and every theorem
about version ordering assumes the compared versions parse. -/
def semverLtB (a b : String) : Bool :=
  match parseSemVer a, parseSemVer b with
  | some x, some y => cmpSemVer x y == .lt
  | _, _ => false

/-- The model of `semver.gt` on strings (same convention as `semverLtB`). -/
def semverGtB (a b : String) : Bool :=
  match parseSemVer a, parseSemVer b with
  | some x, some y => cmpSemVer x y == .gt
  | _, _ => false

/-- Nonstrict semantic-version order on strings (both must parse). -/
def semverLeB (a b : String) : Bool :=
  match parseSemVer a, parseSemVer b with
  | some x, some y => !(cmpSemVer x y == .gt)
  | _, _ => false

/-- Translation of `byVersion` (npm.js lines 110-112):
`semver.lt(a, b) ? -1 : semver.gt(a, b) ? 1 : 0`. -/
def byVersion (a b : String) : Int :=
  if semverLtB a b then -1 else if semverGtB a b then 1 else 0

/-- Model of `Array.prototype.sort` with a comparator: insert into a sorted
prefix.  ECMAScript requires sort to produce a permutation ordered by any
consistent comparator, which the lemmas below establish for this model. -/
def insertSorted (cmp : String → String → Int) (a : String) :
    List String → List String
  | [] => [a]
  | b :: bs => if cmp a b ≤ 0 then a :: b :: bs else b :: insertSorted cmp a bs

/-- The sort itself (insertion sort over the comparator). -/
def sortJs (cmp : String → String → Int) : List String → List String
  | [] => []
  | a :: as => insertSorted cmp a (sortJs cmp as)

theorem insertSorted_perm (cmp : String → String → Int) (a : String) :
    ∀ l : List String, (insertSorted cmp a l).Perm (a :: l) := by
  intro l
  induction l with
  | nil => exact List.Perm.refl _
  | cons b bs ih =>
    rw [insertSorted]
    by_cases h : cmp a b ≤ 0
    · rw [if_pos h]
    · rw [if_neg h]
      exact ((ih.cons b).trans (List.Perm.swap a b bs))

theorem sortJs_perm (cmp : String → String → Int) :
    ∀ l : List String, (sortJs cmp l).Perm l := by
  intro l
  induction l with
  | nil => exact List.Perm.refl _
  | cons a as ih =>
    rw [sortJs]
    exact (insertSorted_perm cmp a (sortJs cmp as)).trans (ih.cons a)

theorem insertSorted_pairwise (cmp : String → String → Int) (P : String → Prop)
    (htot : ∀ x y, P x → P y → cmp x y ≤ 0 ∨ cmp y x ≤ 0)
    (htrans : ∀ x y z, P x → P y → P z → cmp x y ≤ 0 → cmp y z ≤ 0 → cmp x z ≤ 0)
    (a : String) (ha : P a) :
    ∀ l : List String, (∀ x ∈ l, P x) →
      l.Pairwise (fun x y => cmp x y ≤ 0) →
      (insertSorted cmp a l).Pairwise (fun x y => cmp x y ≤ 0) := by
  intro l
  induction l with
  | nil => intro _ _; exact List.pairwise_singleton _ _
  | cons b bs ih =>
    intro hmem hpw
    have hPb : P b := hmem b (List.mem_cons_self b bs)
    have hPbs : ∀ x ∈ bs, P x := fun x hx => hmem x (List.mem_cons_of_mem b hx)
    rw [List.pairwise_cons] at hpw
    rw [insertSorted]
    by_cases h : cmp a b ≤ 0
    · rw [if_pos h, List.pairwise_cons]
      refine ⟨?_, List.pairwise_cons.mpr hpw⟩
      intro x hx
      rcases List.mem_cons.mp hx with rfl | hx
      · exact h
      · exact htrans a b x ha hPb (hPbs x hx) h (hpw.1 x hx)
    · rw [if_neg h, List.pairwise_cons]
      have hba : cmp b a ≤ 0 := by
        rcases htot a b ha hPb with hab | hba
        · exact absurd hab h
        · exact hba
      refine ⟨?_, ih hPbs hpw.2⟩
      intro x hx
      have hx2 := (insertSorted_perm cmp a bs).mem_iff.mp hx
      rcases List.mem_cons.mp hx2 with rfl | hx2
      · exact hba
      · exact hpw.1 x hx2

theorem sortJs_pairwise (cmp : String → String → Int) (P : String → Prop)
    (htot : ∀ x y, P x → P y → cmp x y ≤ 0 ∨ cmp y x ≤ 0)
    (htrans : ∀ x y z, P x → P y → P z → cmp x y ≤ 0 → cmp y z ≤ 0 → cmp x z ≤ 0) :
    ∀ l : List String, (∀ x ∈ l, P x) →
      (sortJs cmp l).Pairwise (fun x y => cmp x y ≤ 0) := by
  intro l
  induction l with
  | nil => intro _; exact List.Pairwise.nil
  | cons a as ih =>
    intro hmem
    have hPa : P a := hmem a (List.mem_cons_self a as)
    have hPas : ∀ x ∈ as, P x := fun x hx => hmem x (List.mem_cons_of_mem a hx)
    rw [sortJs]
    exact insertSorted_pairwise cmp P htot htrans a hPa (sortJs cmp as)
      (fun x hx => hPas x ((sortJs_perm cmp as).mem_iff.mp hx)) (ih hPas)

/-- On parsable versions, `byVersion a b ≤ 0` says the comparison is not
`gt`. -/
theorem byVersion_le_char (a b : String) (x y : SemVer)
    (ha : parseSemVer a = some x) (hb : parseSemVer b = some y) :
    (byVersion a b ≤ 0) ↔ cmpSemVer x y ≠ .gt := by
  unfold byVersion semverLtB semverGtB
  rw [ha, hb]
  dsimp only
  rcases hcmp : cmpSemVer x y with _ | _ | _ <;> decide

theorem semverLeB_char (a b : String) (x y : SemVer)
    (ha : parseSemVer a = some x) (hb : parseSemVer b = some y) :
    semverLeB a b = true ↔ cmpSemVer x y ≠ .gt := by
  unfold semverLeB
  rw [ha, hb]
  dsimp only
  rcases hcmp : cmpSemVer x y with _ | _ | _ <;> decide

theorem cmpSemVer_le_trans (x y z : SemVer) (h1 : cmpSemVer x y ≠ .gt)
    (h2 : cmpSemVer y z ≠ .gt) : cmpSemVer x z ≠ .gt := by
  rcases hcmp1 : cmpSemVer x y with _ | _ | _
  · rcases hcmp2 : cmpSemVer y z with _ | _ | _
    · simp [cmpSemVer_trans x y z hcmp1 hcmp2]
    · rw [cmpSemVer_eq_iff] at hcmp2
      subst hcmp2
      simp [hcmp1]
    · exact absurd hcmp2 h2
  · rw [cmpSemVer_eq_iff] at hcmp1
    subst hcmp1
    exact h2
  · exact absurd hcmp1 h1

theorem byVersion_total (a b : String) (x y : SemVer)
    (ha : parseSemVer a = some x) (hb : parseSemVer b = some y) :
    byVersion a b ≤ 0 ∨ byVersion b a ≤ 0 := by
  rw [byVersion_le_char a b x y ha hb, byVersion_le_char b a y x hb ha]
  rcases hcmp : cmpSemVer x y with _ | _ | _
  · left; simp
  · left; simp
  · right
    have hswap : cmpSemVer y x = .lt := (cmpSemVer_gt_iff_swap x y).mp hcmp
    simp [hswap]

theorem byVersion_trans (a b c : String) (x y z : SemVer)
    (ha : parseSemVer a = some x) (hb : parseSemVer b = some y)
    (hc : parseSemVer c = some z)
    (h1 : byVersion a b ≤ 0) (h2 : byVersion b c ≤ 0) : byVersion a c ≤ 0 := by
  rw [byVersion_le_char a b x y ha hb] at h1
  rw [byVersion_le_char b c y z hb hc] at h2
  rw [byVersion_le_char a c x z ha hc]
  exact cmpSemVer_le_trans x y z h1 h2

/-! ## The semver collaborator: ranges -/

/-- A comparator operator. -/
inductive CompOp where
  | ceq
  | clt
  | cle
  | cgt
  | cge
deriving DecidableEq

/-- One primitive comparator: an operator applied to a version. -/
structure Comparator where
  op : CompOp
  ver : SemVer
deriving DecidableEq

/-- Split a range string at `||` markers. -/
def splitAltsAux : List Char → List Char × List (List Char)
  | [] => ([], [])
  | '|' :: '|' :: rest =>
    let p := splitAltsAux rest
    ([], p.1 :: p.2)
  | c :: rest =>
    let p := splitAltsAux rest
    (c :: p.1, p.2)

/-- The `||`-separated alternatives of a range string. -/
def splitAlts (cs : List Char) : List (List Char) :=
  let p := splitAltsAux cs
  p.1 :: p.2

/-- Strip leading and trailing whitespace. -/
def trimChars (cs : List Char) : List Char :=
  ((cs.dropWhile isWsChar).reverse.dropWhile isWsChar).reverse

/-- Split into maximal whitespace-free tokens (empty tokens dropped). -/
def wsSplitAux : List Char → List Char × List (List Char)
  | [] => ([], [])
  | c :: rest =>
    let p := wsSplitAux rest
    if isWsChar c then
      if p.1.isEmpty then ([], p.2) else ([], p.1 :: p.2)
    else (c :: p.1, p.2)

/-- The whitespace-separated tokens of an alternative. -/
def wsSplit (cs : List Char) : List (List Char) :=
  let p := wsSplitAux cs
  if p.1.isEmpty then p.2 else p.1 :: p.2

/-- The upper bound comparator produced by a caret range: the next breaking
version, as an exclusive bound with prerelease `-0`. -/
def caretUpper (v : SemVer) : SemVer :=
  if v.major > 0 then ⟨v.major + 1, 0, 0, [.numId 0]⟩
  else if v.minor > 0 then ⟨0, v.minor + 1, 0, [.numId 0]⟩
  else ⟨0, 0, v.patch + 1, [.numId 0]⟩

/-- The upper bound comparator produced by a tilde range. -/
def tildeUpper (v : SemVer) : SemVer :=
  ⟨v.major, v.minor + 1, 0, [.numId 0]⟩

/-- Parse one comparator token into primitive comparators (`^` and `~`
desugar into a bounded pair, `*` into no constraint). -/
def parseComp (tok : List Char) : Option (List Comparator) :=
  match tok with
  | ['*'] => some []
  | '>' :: '=' :: v =>
    match parseVersionChars v with
    | some sv => some [⟨.cge, sv⟩]
    | none => none
  | '<' :: '=' :: v =>
    match parseVersionChars v with
    | some sv => some [⟨.cle, sv⟩]
    | none => none
  | '>' :: v =>
    match parseVersionChars v with
    | some sv => some [⟨.cgt, sv⟩]
    | none => none
  | '<' :: v =>
    match parseVersionChars v with
    | some sv => some [⟨.clt, sv⟩]
    | none => none
  | '=' :: v =>
    match parseVersionChars v with
    | some sv => some [⟨.ceq, sv⟩]
    | none => none
  | '^' :: v =>
    match parseVersionChars v with
    | some sv => some [⟨.cge, sv⟩, ⟨.clt, caretUpper sv⟩]
    | none => none
  | '~' :: v =>
    match parseVersionChars v with
    | some sv => some [⟨.cge, sv⟩, ⟨.clt, tildeUpper sv⟩]
    | none => none
  | v =>
    match parseVersionChars v with
    | some sv => some [⟨.ceq, sv⟩]
    | none => none

/-- Parse one alternative: all of its tokens, concatenated. -/
def parseAlt (toks : List (List Char)) : Option (List Comparator) :=
  match toks with
  | [] => some []
  | t :: ts =>
    match parseComp t, parseAlt ts with
    | some cs, some rest => some (cs ++ rest)
    | _, _ => none

/-- Parse all alternatives of a range. -/
def parseAlts : List (List Char) → Option (List (List Comparator))
  | [] => some []
  | a :: as =>
    match parseAlt (wsSplit (trimChars a)), parseAlts as with
    | some cs, some rest => some (cs :: rest)
    | _, _ => none

/-- The model of `new Range(range)`: `none` models a thrown `TypeError` for
an unparsable range. -/
def parseRange (s : String) : Option (List (List Comparator)) :=
  parseAlts (splitAlts s.toList)

/-- Does a version satisfy one primitive comparator? -/
def testComp (sv : SemVer) (c : Comparator) : Bool :=
  match c.op with
  | .ceq => cmpSemVer sv c.ver == .eq
  | .clt => cmpSemVer sv c.ver == .lt
  | .cle => !(cmpSemVer sv c.ver == .gt)
  | .cgt => cmpSemVer sv c.ver == .gt
  | .cge => !(cmpSemVer sv c.ver == .lt)

/-- The prerelease rule: a prerelease version satisfies a comparator set
only if some comparator in the set carries a prerelease on the same
`[major, minor, patch]` triple. -/
def altPreOk (sv : SemVer) (comps : List Comparator) : Bool :=
  sv.pre.isEmpty ||
    comps.any fun c =>
      !c.ver.pre.isEmpty && c.ver.major == sv.major && c.ver.minor == sv.minor
        && c.ver.patch == sv.patch

/-- Does a version satisfy one alternative (all comparators plus the
prerelease rule)? -/
def testAlt (sv : SemVer) (comps : List Comparator) : Bool :=
  comps.all (testComp sv) && altPreOk sv comps

/-- The model of `Range.test`: an unparsable version never satisfies. -/
def rangeTest (r : List (List Comparator)) (v : String) : Bool :=
  match parseSemVer v with
  | none => false
  | some sv => r.any (testAlt sv)

/-- The model of `semver.satisfies(version, range)`: `false` both for a
non-matching and for an unparsable range or version. -/
def satisfiesB (v range : String) : Bool :=
  match parseRange range with
  | some r => rangeTest r v
  | none => false

/-- One step of `maxSatisfying`'s scan: keep the satisfying version that is
greatest so far (`if (!max || maxSV.compare(v) === -1)` in node-semver). -/
def pickStep (r : List (List Comparator)) (acc : Option String) (v : String) :
    Option String :=
  if rangeTest r v then
    match acc with
    | none => some v
    | some m => if semverLtB m v then some v else acc
  else acc

/-- The model of `semver.maxSatisfying(versions, range)`. -/
def maxSatisfying (versions : List String) (range : String) : Option String :=
  match parseRange range with
  | none => none
  | some r => versions.foldl (pickStep r) none

theorem rangeTest_parses (r : List (List Comparator)) (v : String)
    (h : rangeTest r v = true) : ∃ sv, parseSemVer v = some sv := by
  unfold rangeTest at h
  rcases hp : parseSemVer v with _ | sv
  · rw [hp] at h
    exact Bool.noConfusion h
  · exact ⟨sv, rfl⟩

theorem semverLeB_refl (a : String) (x : SemVer) (ha : parseSemVer a = some x) :
    semverLeB a a = true := by
  unfold semverLeB
  rw [ha]
  dsimp only
  rw [(cmpSemVer_eq_iff x x).mpr rfl]
  decide

theorem semverLeB_trans (a b c : String) (x y z : SemVer)
    (ha : parseSemVer a = some x) (hb : parseSemVer b = some y)
    (hc : parseSemVer c = some z)
    (h1 : semverLeB a b = true) (h2 : semverLeB b c = true) :
    semverLeB a c = true := by
  rw [semverLeB_char a b x y ha hb] at h1
  rw [semverLeB_char b c y z hb hc] at h2
  rw [semverLeB_char a c x z ha hc]
  exact cmpSemVer_le_trans x y z h1 h2

theorem semverLtB_false_le (m v : String) (x y : SemVer)
    (hm : parseSemVer m = some x) (hv : parseSemVer v = some y)
    (h : semverLtB m v = false) : semverLeB v m = true := by
  unfold semverLtB at h
  rw [hm, hv] at h
  dsimp only at h
  rw [semverLeB_char v m y x hv hm]
  intro hgt
  rw [(cmpSemVer_gt_iff_swap y x).mp hgt] at h
  exact Bool.noConfusion h

theorem semverLtB_true_le (m v : String) (x y : SemVer)
    (hm : parseSemVer m = some x) (hv : parseSemVer v = some y)
    (h : semverLtB m v = true) : semverLeB m v = true := by
  unfold semverLtB at h
  rw [hm, hv] at h
  dsimp only at h
  rw [semverLeB_char m v x y hm hv]
  intro hgt
  rw [hgt] at h
  exact Bool.noConfusion h

theorem pickFold_spec (r : List (List Comparator)) : ∀ (l : List String)
    (acc : Option String),
    (∀ a, acc = some a → rangeTest r a = true) →
    ((l.foldl (pickStep r) acc = none → acc = none ∧ ∀ v ∈ l, rangeTest r v = false)
     ∧ (∀ m, l.foldl (pickStep r) acc = some m →
         rangeTest r m = true
         ∧ (m ∈ l ∨ acc = some m)
         ∧ (∀ v ∈ l, rangeTest r v = true → semverLeB v m = true)
         ∧ (∀ a, acc = some a → semverLeB a m = true))) := by
  intro l
  induction l with
  | nil =>
    intro acc hacc
    constructor
    · intro h
      exact ⟨h, fun v hv => absurd hv (List.not_mem_nil v)⟩
    · intro m hm
      rw [List.foldl_nil] at hm
      obtain ⟨x, hx⟩ := rangeTest_parses r m (hacc m hm)
      exact ⟨hacc m hm, Or.inr hm,
        fun v hv => absurd hv (List.not_mem_nil v),
        fun a ha => by
          rw [ha] at hm
          cases hm
          exact semverLeB_refl m x hx⟩
  | cons v l ih =>
    intro acc hacc
    rw [List.foldl_cons]
    have hstep : ∀ a, pickStep r acc v = some a → rangeTest r a = true := by
      intro a hastep
      unfold pickStep at hastep
      by_cases htest : rangeTest r v = true
      · rw [if_pos htest] at hastep
        rcases hw : acc with _ | m0
        · rw [hw] at hastep
          dsimp only at hastep
          cases hastep
          exact htest
        · rw [hw] at hastep
          dsimp only at hastep
          by_cases hlt : semverLtB m0 v = true
          · rw [if_pos hlt] at hastep
            cases hastep
            exact htest
          · rw [if_neg (by simpa using hlt)] at hastep
            exact hacc a (hw ▸ hastep)
      · rw [if_neg htest] at hastep
        exact hacc a hastep
    obtain ⟨ihn, ihs⟩ := ih (pickStep r acc v) hstep
    constructor
    · intro h
      obtain ⟨hstepnone, hall⟩ := ihn h
      have haccnone : acc = none ∧ rangeTest r v = false := by
        unfold pickStep at hstepnone
        by_cases htest : rangeTest r v = true
        · rw [if_pos htest] at hstepnone
          rcases hw : acc with _ | m0
          · rw [hw] at hstepnone
            dsimp only at hstepnone
            exact Option.noConfusion hstepnone
          · rw [hw] at hstepnone
            dsimp only at hstepnone
            by_cases hlt : semverLtB m0 v = true
            · rw [if_pos hlt] at hstepnone
              exact Option.noConfusion hstepnone
            · rw [if_neg (by simpa using hlt)] at hstepnone
              exact Option.noConfusion hstepnone
        · rw [if_neg htest] at hstepnone
          exact ⟨hstepnone, by simpa using htest⟩
      refine ⟨haccnone.1, ?_⟩
      intro w hw
      rcases List.mem_cons.mp hw with rfl | hw
      · exact haccnone.2
      · exact hall w hw
    · intro m hm
      obtain ⟨hmtest, hmmem, hmmax, hmacc⟩ := ihs m hm
      obtain ⟨mx, hmx⟩ := rangeTest_parses r m hmtest
      have hvle : rangeTest r v = true → semverLeB v m = true := by
        intro htest
        obtain ⟨vx, hvx⟩ := rangeTest_parses r v htest
        unfold pickStep at hmacc
        rw [if_pos htest] at hmacc
        rcases hw : acc with _ | m0
        · rw [hw] at hmacc
          dsimp only at hmacc
          exact hmacc v rfl
        · rw [hw] at hmacc
          dsimp only at hmacc
          by_cases hlt : semverLtB m0 v = true
          · rw [if_pos hlt] at hmacc
            exact hmacc v rfl
          · rw [if_neg (by simpa using hlt)] at hmacc
            obtain ⟨m0x, hm0x⟩ := rangeTest_parses r m0 (hacc m0 hw)
            have h1 : semverLeB v m0 = true :=
              semverLtB_false_le m0 v m0x vx hm0x hvx (by simpa using hlt)
            have h2 : semverLeB m0 m = true := hmacc m0 rfl
            exact semverLeB_trans v m0 m vx m0x mx hvx hm0x hmx h1 h2
      refine ⟨hmtest, ?_, ?_, ?_⟩
      · rcases hmmem with hmem | hstepeq
        · exact Or.inl (List.mem_cons_of_mem v hmem)
        · unfold pickStep at hstepeq
          by_cases htest : rangeTest r v = true
          · rw [if_pos htest] at hstepeq
            rcases hw : acc with _ | m0
            · rw [hw] at hstepeq
              dsimp only at hstepeq
              cases hstepeq
              exact Or.inl (List.mem_cons_self _ _)
            · rw [hw] at hstepeq
              dsimp only at hstepeq
              by_cases hlt : semverLtB m0 v = true
              · rw [if_pos hlt] at hstepeq
                cases hstepeq
                exact Or.inl (List.mem_cons_self _ _)
              · rw [if_neg (by simpa using hlt)] at hstepeq
                exact Or.inr (hw ▸ hstepeq)
          · rw [if_neg htest] at hstepeq
            exact Or.inr hstepeq
      · intro w hw hwt
        rcases List.mem_cons.mp hw with rfl | hw2
        · exact hvle hwt
        · exact hmmax w hw2 hwt
      · intro a ha
        obtain ⟨ax, hax⟩ := rangeTest_parses r a (hacc a ha)
        unfold pickStep at hmacc
        by_cases htest : rangeTest r v = true
        · rw [if_pos htest] at hmacc
          obtain ⟨vx, hvx⟩ := rangeTest_parses r v htest
          rw [ha] at hmacc
          dsimp only at hmacc
          by_cases hlt : semverLtB a v = true
          · rw [if_pos hlt] at hmacc
            have h1 : semverLeB a v = true := semverLtB_true_le a v ax vx hax hvx hlt
            have h2 : semverLeB v m = true := hmacc v rfl
            exact semverLeB_trans a v m ax vx mx hax hvx hmx h1 h2
          · rw [if_neg (by simpa using hlt)] at hmacc
            exact hmacc a rfl
        · rw [if_neg htest] at hmacc
          exact hmacc a ha

/-- `maxSatisfying` returns `none` exactly when nothing satisfies, and a
satisfying member that dominates all satisfying members otherwise. -/
theorem maxSatisfying_spec (versions : List String) (range : String) :
    (maxSatisfying versions range = none →
      ∀ v ∈ versions, satisfiesB v range = false)
    ∧ (∀ m, maxSatisfying versions range = some m →
        m ∈ versions ∧ satisfiesB m range = true
        ∧ ∀ v ∈ versions, satisfiesB v range = true → semverLeB v m = true) := by
  unfold maxSatisfying satisfiesB
  rcases hr : parseRange range with _ | r
  · exact ⟨fun _ v _ => rfl, fun m hm => Option.noConfusion hm⟩
  · obtain ⟨hn, hs⟩ := pickFold_spec r versions none (fun a ha => Option.noConfusion ha)
    constructor
    · intro h v hv
      exact (hn h).2 v hv
    · intro m hm
      obtain ⟨hmtest, hmmem, hmmax, _⟩ := hs m hm
      refine ⟨?_, hmtest, fun v hv hvt => hmmax v hv hvt⟩
      rcases hmmem with h | h
      · exact h
      · exact Option.noConfusion h

/-! ## The module under verification: npm.js -/

/-- `oneSecond` (line 17, milliseconds). -/
def oneSecond : Nat := 1000

/-- `oneMinute` (line 18). -/
def oneMinute : Nat := oneSecond * 60

/-- The `notFound` sentinel (line 26): the empty string. -/
def notFound : String := ""

/-- One entry of the `lru-cache` collaborator: key, stored string, absolute
expiry (insertion time plus the per-`set` `maxAge`). -/
structure CacheEntry where
  key : String
  value : String
  expires : Nat
deriving DecidableEq

/-- The cache state.  The model keeps key, value and expiry; an entry is
absent once its age exceeds its `maxAge`, matching the library's staleness
check.  The byte-budget LRU eviction is not modelled: no claim depends on
it, and eviction only removes entries, which callers must tolerate anyway. -/
abbrev Cache := List CacheEntry

/-- `cache.get(key)`: the entry's value if present and fresh. -/
def cacheGet (c : Cache) (k : String) (now : Nat) : Option String :=
  match c.find? (fun e => e.key == k) with
  | some e => if now ≤ e.expires then some e.value else none
  | none => none

/-- `cache.set(key, value, maxAge)`: replace any entry for the key. -/
def cacheSet (c : Cache) (k v : String) (ttl : Nat) (now : Nat) : Cache :=
  ⟨k, v, now + ttl⟩ :: c.filter (fun e => !(e.key == k))

/-- The outcome of one upstream HTTP interaction: a response with a status
code and a buffered body, or a transport-level error. -/
inductive Upstream where
  | response (statusCode : Nat) (body : String)
  | failure (msg : String)
deriving DecidableEq

/-- The ways a call can reject: a transport error, a `SyntaxError` from
`JSON.parse`, a `TypeError` from using a document outside the registry
schema, or the explicitly thrown `Error` with its message. -/
inductive NpmErr where
  | network (msg : String)
  | badJson
  | badShape
  | http (message : String)
deriving DecidableEq

/-- The message of the `Error` thrown by `fetchPackageInfo` for an
unexpected status (lines 73-75). -/
def fetchInfoErrorMessage (packageName : String) (status : Nat) (body : String) :
    String :=
  "Failed to fetch info for " ++ packageName ++ "\nstatus: " ++ toString status
    ++ "\ndata: " ++ body

/-- Translation of `fetchPackageInfo` (lines 44-76): status 200 parses the
body as JSON, status 404 is the not-found signal (`null`), and any other
status throws an `Error` carrying the status code and the body text. -/
def fetchPackageInfo (packageName : String) (u : Upstream) :
    Except NpmErr (Option Json) :=
  match u with
  | .failure msg => .error (.network msg)
  | .response status body =>
    if status = 200 then
      match jsonParse body with
      | some j => .ok (some j)
      | none => .error .badJson
    else if status = 404 then .ok none
    else .error (.http (fetchInfoErrorMessage packageName status body))

/-- The versions/tags view that `fetchVersionsAndTags` derives from a
metadata document. -/
structure VersionsTags where
  versions : List String
  tags : List (String × String)
deriving DecidableEq

/-- The JSON object `{versions: [...], tags: {...}}` that the derived view
serialises to. -/
def VersionsTags.toJson (vt : VersionsTags) : Json :=
  .obj [("versions", .arr (vt.versions.map Json.str)),
        ("tags", .obj (vt.tags.map fun kv => (kv.1, Json.str kv.2)))]

/-- A JSON string, if the value is one. -/
def Json.asStr : Json → Option String
  | .str s => some s
  | _ => none

/-- Decode a JSON array of strings. -/
def decodeStrList : List Json → Option (List String)
  | [] => some []
  | j :: js =>
    match j.asStr, decodeStrList js with
    | some s, some rest => some (s :: rest)
    | _, _ => none

/-- Decode a string-valued JSON object into a pair list. -/
def decodeTagList : List (String × Json) → Option (List (String × String))
  | [] => some []
  | (k, j) :: rest =>
    match j.asStr, decodeTagList rest with
    | some s, some tl => some ((k, s) :: tl)
    | _, _ => none

/-- Decode the serialised versions/tags view.  The JavaScript hit path
returns `JSON.parse(cacheValue)` and the callers immediately destructure
`{versions, tags}`; this decode models that destructuring, and every value
this module stores decodes successfully (`fromJson_toJson` below). -/
def VersionsTags.fromJson? (j : Json) : Option VersionsTags :=
  match j with
  | .obj [(k1, .arr vs), (k2, .obj ts)] =>
    if k1 == "versions" && k2 == "tags" then
      match decodeStrList vs, decodeTagList ts with
      | some versions, some tags => some ⟨versions, tags⟩
      | _, _ => none
    else none
  | _ => none

theorem decodeStrList_map (l : List String) :
    decodeStrList (l.map Json.str) = some l := by
  induction l with
  | nil => rfl
  | cons s l ih => simp [decodeStrList, ih, Json.asStr]

theorem decodeTagList_map (l : List (String × String)) :
    decodeTagList (l.map fun kv => (kv.1, Json.str kv.2)) = some l := by
  induction l with
  | nil => rfl
  | cons kv l ih => simp [decodeTagList, ih, Json.asStr]

theorem VersionsTags.fromJson_toJson (vt : VersionsTags) :
    VersionsTags.fromJson? vt.toJson = some vt := by
  unfold VersionsTags.toJson VersionsTags.fromJson?
  simp [decodeStrList_map, decodeTagList_map]

/-- The view `fetchVersionsAndTags` builds (lines 85-88):
`Object.keys(info.versions)` and `info['dist-tags']`.  `Object.keys` of a
missing or non-object `versions` field throws a `TypeError`; the registry
schema makes `dist-tags` a string-valued object and a mismatch is treated
the same way. -/
def extractVersionsTags (info : Json) : Option VersionsTags :=
  match info with
  | .obj fields =>
    match fields.lookup "versions", fields.lookup "dist-tags" with
    | some (.obj vfields), some (.obj tfields) =>
      match decodeTagList tfields with
      | some tags => some ⟨vfields.map Prod.fst, tags⟩
      | none => none
    | _, _ => none
  | _ => none

/-- Translation of `fetchVersionsAndTags` (lines 78-89): a falsy document
(`!info`) yields `null`, otherwise the versions/tags view is built. -/
def fetchVersionsAndTags (packageName : String) (u : Upstream) :
    Except NpmErr (Option VersionsTags) :=
  match fetchPackageInfo packageName u with
  | .error e => .error e
  | .ok none => .ok none
  | .ok (some info) =>
    if info.truthy then
      match extractVersionsTags info with
      | some vt => .ok (some vt)
      | none => .error .badShape
    else .ok none

/-- The cache key of `getVersionsAndTags` (line 92). -/
def versionsCacheKey (packageName : String) : String := "versions-" ++ packageName

/-- Translation of `getVersionsAndTags` (lines 91-108): serve a fresh cache
entry (the `notFound` sentinel meaning `null`), otherwise fetch; a missing
package is cached for five minutes, a derived view is stringified and
cached for one minute, and a failed fetch rejects without touching the
cache. -/
def getVersionsAndTags (packageName : String) (u : Upstream) (c : Cache)
    (now : Nat) : Except NpmErr (Option VersionsTags) × Cache :=
  match cacheGet c (versionsCacheKey packageName) now with
  | some s =>
    if s == notFound then (.ok none, c)
    else
      match jsonParse s with
      | none => (.error .badJson, c)
      | some j =>
        match VersionsTags.fromJson? j with
        | some vt => (.ok (some vt), c)
        | none => (.error .badShape, c)
  | none =>
    match fetchVersionsAndTags packageName u with
    | .error e => (.error e, c)
    | .ok none =>
      (.ok none, cacheSet c (versionsCacheKey packageName) notFound (5 * oneMinute) now)
    | .ok (some vt) =>
      (.ok (some vt),
        cacheSet c (versionsCacheKey packageName) (jsonStringify vt.toJson) oneMinute now)

/-- The pure part of `getAvailableVersions` (lines 117-125): sort the
version list with `byVersion`, empty when the package is unknown. -/
def getAvailableVersionsFrom (vtOpt : Option VersionsTags) : List String :=
  match vtOpt with
  | some vt => sortJs byVersion vt.versions
  | none => []

/-- Translation of `getAvailableVersions` (lines 117-125), with the awaited
`getVersionsAndTags` composed in. -/
def getAvailableVersions (packageName : String) (u : Upstream) (c : Cache)
    (now : Nat) : Except NpmErr (List String) × Cache :=
  match getVersionsAndTags packageName u c now with
  | (.error e, c2) => (.error e, c2)
  | (.ok vtOpt, c2) => (.ok (getAvailableVersionsFrom vtOpt), c2)

/-- The pure part of `resolveVersion` (lines 134-146): replace a known tag
by its target, return an exact version match unchanged, otherwise take the
maximum version satisfying the range.  `range in tags` is own-property
lookup here; a prototype-chain hit in JavaScript replaces the range by a
non-string and falls through `maxSatisfying`'s catch to the same `null`.
Lines 137-139: the tag replacement step. -/
def tagReplace (vt : VersionsTags) (range : String) : String :=
  match vt.tags.lookup range with
  | some v => v
  | none => range

/-- Lines 141-143: exact match short-circuits, otherwise range selection. -/
def resolveVersionFrom (vt : VersionsTags) (range : String) : Option String :=
  let r := tagReplace vt range
  if vt.versions.contains r then some r
  else maxSatisfying vt.versions r

/-- Translation of `resolveVersion` (lines 131-147), with the awaited
`getVersionsAndTags` composed in. -/
def resolveVersion (packageName range : String) (u : Upstream) (c : Cache)
    (now : Nat) : Except NpmErr (Option String) × Cache :=
  match getVersionsAndTags packageName u c now with
  | (.error e, c2) => (.error e, c2)
  | (.ok none, c2) => (.ok none, c2)
  | (.ok (some vt), c2) => (.ok (resolveVersionFrom vt range), c2)

/-- The fixed exclusion list (lines 151-161). -/
def packageConfigExcludeKeys : List String :=
  ["browserify", "bugs", "directories", "engines", "files", "homepage",
   "keywords", "maintainers", "scripts"]

/-- Whether a key begins with the underscore marker. -/
def startsWithUnderscore (k : String) : Bool :=
  match k.toList with
  | c :: _ => c == '_'
  | [] => false

/-- Translation of `cleanPackageConfig` (lines 163-171): the reduce over
`Object.keys` copies exactly the keys that neither start with `_` nor sit
on the exclusion list, in order, with their values. -/
def cleanPackageConfig (doc : List (String × Json)) : List (String × Json) :=
  doc.filter fun kv =>
    !startsWithUnderscore kv.1 && !packageConfigExcludeKeys.contains kv.1

/-- Translation of `fetchPackageConfig` (lines 173-181): a falsy document
or a missing version key yields `null`; otherwise the version
sub-document is cleaned.  `version in info.versions` needs an
object-valued `versions` field (else the `in` operator throws), and a
non-object sub-document is outside the registry schema. -/
def fetchPackageConfig (packageName version : String) (u : Upstream) :
    Except NpmErr (Option Json) :=
  match fetchPackageInfo packageName u with
  | .error e => .error e
  | .ok none => .ok none
  | .ok (some info) =>
    if info.truthy then
      match info with
      | .obj fields =>
        match fields.lookup "versions" with
        | some (.obj vfields) =>
          match vfields.lookup version with
          | some (.obj sfields) => .ok (some (.obj (cleanPackageConfig sfields)))
          | some _ => .error .badShape
          | none => .ok none
        | _ => .error .badShape
      | _ => .error .badShape
    else .ok none

/-- The cache key of `getPackageConfig` (line 188). -/
def configCacheKey (packageName version : String) : String :=
  "config-" ++ packageName ++ "-" ++ version

/-- Translation of `getPackageConfig` (lines 187-204): the cache protocol
of `getVersionsAndTags` with the per-version config as the value. -/
def getPackageConfig (packageName version : String) (u : Upstream) (c : Cache)
    (now : Nat) : Except NpmErr (Option Json) × Cache :=
  match cacheGet c (configCacheKey packageName version) now with
  | some s =>
    if s == notFound then (.ok none, c)
    else
      match jsonParse s with
      | none => (.error .badJson, c)
      | some j => (.ok (some j), c)
  | none =>
    match fetchPackageConfig packageName version u with
    | .error e => (.error e, c)
    | .ok none =>
      (.ok none,
        cacheSet c (configCacheKey packageName version) notFound (5 * oneMinute) now)
    | .ok (some value) =>
      (.ok (some value),
        cacheSet c (configCacheKey packageName version) (jsonStringify value)
          oneMinute now)

/-! ## Package names and transport paths -/

/-- Translation of `isScopedPackageName` (lines 34-36). -/
def isScopedPackageName (packageName : List Char) : Bool :=
  match packageName with
  | c :: _ => c == '@'
  | [] => false

/-- A character `encodeURIComponent` leaves unescaped. -/
def isUriUnreserved (c : Char) : Bool :=
  (65 ≤ c.toNat && c.toNat ≤ 90) || (97 ≤ c.toNat && c.toNat ≤ 122) || isDigitChar c
    || c == '-' || c == '_' || c == '.' || c == '!' || c == '~' || c == '*'
    || c == Char.ofNat 39 || c == '(' || c == ')'

/-- The UTF-8 bytes of a code point. -/
def utf8Bytes (n : Nat) : List Nat :=
  if n < 128 then [n]
  else if n < 2048 then [192 + n / 64, 128 + n % 64]
  else if n < 65536 then [224 + n / 4096, 128 + (n / 64) % 64, 128 + n % 64]
  else [240 + n / 262144, 128 + (n / 4096) % 64, 128 + (n / 64) % 64, 128 + n % 64]

/-- The upper-case hexadecimal digit character for `d < 16`. -/
def hexCharUpper (d : Nat) : Char :=
  if d < 10 then Char.ofNat (48 + d) else Char.ofNat (55 + d)

/-- A percent-escaped byte, `%XY`. -/
def percentByte (b : Nat) : List Char :=
  '%' :: hexCharUpper (b / 16) :: [hexCharUpper (b % 16)]

/-- How `encodeURIComponent` emits one character. -/
def encodeUriChar (c : Char) : List Char :=
  if isUriUnreserved c then [c]
  else (utf8Bytes c.toNat).flatMap percentByte

/-- The model of `encodeURIComponent` on characters. -/
def encodeURIComponentChars (cs : List Char) : List Char :=
  cs.flatMap encodeUriChar

/-- Translation of `encodePackageName` (lines 38-42): a scoped name keeps
its leading `@` verbatim and encodes the remainder
(`packageName.substring(1)`). -/
def encodePackageName (packageName : List Char) : List Char :=
  if isScopedPackageName packageName then
    '@' :: encodeURIComponentChars packageName.tail
  else encodeURIComponentChars packageName

/-- The request path of a metadata fetch (line 46 through
`url.parse(...).pathname`, with the default registry base, whose own path
is empty). -/
def fetchInfoPath (packageName : List Char) : List Char :=
  '/' :: encodePackageName packageName

/-- The model of `String.prototype.split` with a one-character separator. -/
def splitCharAux (sep : Char) : List Char → List Char × List (List Char)
  | [] => ([], [])
  | c :: rest =>
    let p := splitCharAux sep rest
    if c = sep then ([], p.1 :: p.2) else (c :: p.1, p.2)

/-- All separator-delimited segments. -/
def splitChar (cs : List Char) (sep : Char) : List (List Char) :=
  let p := splitCharAux sep cs
  p.1 :: p.2

/-- Translation of the tarball base name (lines 210-212):
`packageName.split('/')[1]` for a scoped name, the name itself otherwise.
A scoped name without a slash indexes past the array in JavaScript
(`undefined`); the model returns `[]`, and the theorems only treat
well-formed scoped names. -/
def tarballName (packageName : List Char) : List Char :=
  if isScopedPackageName packageName then (splitChar packageName '/').getD 1 []
  else packageName

/-- The request path of an archive fetch (line 213 through
`url.parse(...).pathname`): note the raw, unencoded `packageName`. -/
def tarballPath (packageName version : List Char) : List Char :=
  '/' :: (packageName
    ++ ('/' :: '-' :: '/' :: (tarballName packageName
      ++ '-' :: (version ++ ('.' :: 't' :: 'g' :: 'z' :: [])))))

/-! ## Demonstration inputs shared by the claim witnesses -/

/-- A registry metadata document with two versions and a `latest` tag. -/
def demoBody : String :=
  "\x7b\"versions\":\x7b\"1.0.0\":\x7b\"name\":\"foo\"\x7d,\"1.2.0\":\x7b\x7d\x7d,\"dist-tags\":\x7b\"latest\":\"1.2.0\"\x7d\x7d"

/-- A successful metadata response for `demoBody`. -/
def demoUpstream : Upstream := .response 200 demoBody

/-- The versions/tags view of `demoBody`. -/
def demoVT : VersionsTags := ⟨["1.0.0", "1.2.0"], [("latest", "1.2.0")]⟩

/-- An unsorted three-version document. -/
def demoBody2 : String :=
  "\x7b\"versions\":\x7b\"2.0.0\":\x7b\x7d,\"1.0.0\":\x7b\x7d,\"1.2.0\":\x7b\x7d\x7d,\"dist-tags\":\x7b\"latest\":\"2.0.0\"\x7d\x7d"

/-- A successful metadata response for `demoBody2`. -/
def demoUpstream2 : Upstream := .response 200 demoBody2

/-- The versions/tags view of `demoBody2`. -/
def demoVT2 : VersionsTags := ⟨["2.0.0", "1.0.0", "1.2.0"], [("latest", "2.0.0")]⟩

/-- A document whose `latest` tag names a version that is not published. -/
def cexBody : String :=
  "\x7b\"versions\":\x7b\"1.0.0\":\x7b\x7d\x7d,\"dist-tags\":\x7b\"latest\":\"9.9.9\"\x7d\x7d"

/-- A successful metadata response for `cexBody`. -/
def cexUpstream : Upstream := .response 200 cexBody

/-- The versions/tags view of `cexBody`. -/
def cexVT : VersionsTags := ⟨["1.0.0"], [("latest", "9.9.9")]⟩

/-- The miss path of `getVersionsAndTags` on a successful fetch. -/
theorem getVersionsAndTags_miss_found (packageName : String) (u : Upstream)
    (c : Cache) (now : Nat) (vt : VersionsTags)
    (hmiss : cacheGet c (versionsCacheKey packageName) now = none)
    (hfetch : fetchVersionsAndTags packageName u = .ok (some vt)) :
    getVersionsAndTags packageName u c now =
      (.ok (some vt),
        cacheSet c (versionsCacheKey packageName) (jsonStringify vt.toJson)
          oneMinute now) := by
  unfold getVersionsAndTags
  rw [hmiss]
  dsimp only
  rw [hfetch]

/-- The miss path of `getVersionsAndTags` on a not-found fetch. -/
theorem getVersionsAndTags_miss_notFound (packageName : String) (u : Upstream)
    (c : Cache) (now : Nat)
    (hmiss : cacheGet c (versionsCacheKey packageName) now = none)
    (hfetch : fetchVersionsAndTags packageName u = .ok none) :
    getVersionsAndTags packageName u c now =
      (.ok none,
        cacheSet c (versionsCacheKey packageName) notFound (5 * oneMinute) now) := by
  unfold getVersionsAndTags
  rw [hmiss]
  dsimp only
  rw [hfetch]

/-! ## Claim C1 -/

/-- Claim C1: when the metadata fetch succeeds, `resolveVersion` computes
its result by first replacing a known tag name by the tag's target, then
returning an exact version match unchanged (bypassing range semantics),
and otherwise returning the maximum version of the set satisfying the
range, or null when no version satisfies. -/
theorem resolveVersion_algorithm (packageName range : String) (u : Upstream)
    (c : Cache) (now : Nat) (vt : VersionsTags)
    (hmiss : cacheGet c (versionsCacheKey packageName) now = none)
    (hfetch : fetchVersionsAndTags packageName u = .ok (some vt)) :
    (resolveVersion packageName range u c now).1 = .ok (resolveVersionFrom vt range)
    ∧ (vt.versions.contains (tagReplace vt range) = true →
        resolveVersionFrom vt range = some (tagReplace vt range))
    ∧ (vt.versions.contains (tagReplace vt range) = false →
        (resolveVersionFrom vt range
            = maxSatisfying vt.versions (tagReplace vt range))
        ∧ (resolveVersionFrom vt range = none →
            ∀ v ∈ vt.versions, satisfiesB v (tagReplace vt range) = false)
        ∧ (∀ m, resolveVersionFrom vt range = some m →
            m ∈ vt.versions ∧ satisfiesB m (tagReplace vt range) = true
            ∧ ∀ v ∈ vt.versions,
                satisfiesB v (tagReplace vt range) = true → semverLeB v m = true)) := by
  refine ⟨?_, ?_, ?_⟩
  · unfold resolveVersion
    rw [getVersionsAndTags_miss_found packageName u c now vt hmiss hfetch]
  · intro hc
    unfold resolveVersionFrom
    dsimp only
    rw [hc]
    rfl
  · intro hc
    have heq : resolveVersionFrom vt range
        = maxSatisfying vt.versions (tagReplace vt range) := by
      unfold resolveVersionFrom
      dsimp only
      rw [hc]
      rfl
    obtain ⟨hnone, hsome⟩ := maxSatisfying_spec vt.versions (tagReplace vt range)
    refine ⟨heq, ?_, ?_⟩
    · intro h
      rw [heq] at h
      exact hnone h
    · intro m hm
      rw [heq] at hm
      exact hsome m hm

/-- Witness for C1: resolving the caret range `^1.0.0` against the
demonstration package yields its greatest matching version, `1.2.0`. -/
theorem resolveVersion_algorithm_witness :
    (resolveVersion "foo" "^1.0.0" demoUpstream [] 0).1 = .ok (some "1.2.0") := by
  have h := resolveVersion_algorithm "foo" "^1.0.0" demoUpstream [] 0 demoVT
    (by rfl) (by rfl)
  rw [h.1]
  rfl

/-! ## Claim C3 (settled before C2 to reuse its context) -/

/-- Counterexample to claim C3: the demonstration package maps `latest` to
`9.9.9`, which is not in its version list; `resolveVersion` returns null,
not the tag's target version. -/
theorem resolveVersion_latest_counterexample :
    fetchVersionsAndTags "foo" cexUpstream = .ok (some cexVT)
    ∧ cexVT.tags.lookup "latest" = some "9.9.9"
    ∧ cexVT.versions.contains "9.9.9" = false
    ∧ (resolveVersion "foo" "latest" cexUpstream [] 0).1 = .ok none
    ∧ (Except.ok none : Except NpmErr (Option String)) ≠ .ok (some "9.9.9") := by
  refine ⟨by rfl, by rfl, by rfl, by rfl, ?_⟩
  intro h
  have h2 := Except.ok.inj h
  exact Option.noConfusion h2

/-- Claim C3, amended: `resolveVersion(pkg, "latest")` returns exactly the
tag-mapped version when that version occurs in the package's version list;
when it does not, the tag's target string is instead treated as a range
over the version list, so the result is `maxSatisfying` of it — a member
of the version list different from the target, or null — never the
missing target itself. -/
theorem resolveVersion_latest_amended (packageName : String) (u : Upstream)
    (c : Cache) (now : Nat) (vt : VersionsTags) (t : String)
    (hmiss : cacheGet c (versionsCacheKey packageName) now = none)
    (hfetch : fetchVersionsAndTags packageName u = .ok (some vt))
    (htag : vt.tags.lookup "latest" = some t) :
    (vt.versions.contains t = true →
      (resolveVersion packageName "latest" u c now).1 = .ok (some t))
    ∧ (vt.versions.contains t = false →
        (resolveVersion packageName "latest" u c now).1
          = .ok (maxSatisfying vt.versions t)
        ∧ ∀ m, maxSatisfying vt.versions t = some m → m ∈ vt.versions ∧ m ≠ t) := by
  have hrepl : tagReplace vt "latest" = t := by
    unfold tagReplace
    rw [htag]
  have hbase : (resolveVersion packageName "latest" u c now).1
      = .ok (resolveVersionFrom vt "latest") := by
    unfold resolveVersion
    rw [getVersionsAndTags_miss_found packageName u c now vt hmiss hfetch]
  constructor
  · intro hc
    rw [hbase]
    unfold resolveVersionFrom
    dsimp only
    rw [hrepl, hc]
    rfl
  · intro hc
    have heq : resolveVersionFrom vt "latest" = maxSatisfying vt.versions t := by
      unfold resolveVersionFrom
      dsimp only
      rw [hrepl, hc]
      rfl
    refine ⟨by rw [hbase, heq], ?_⟩
    intro m hm
    have hmem := ((maxSatisfying_spec vt.versions t).2 m hm).1
    refine ⟨hmem, ?_⟩
    intro hmt
    subst hmt
    have : vt.versions.contains m = true := by
      simp [hmem]
    rw [this] at hc
    exact Bool.noConfusion hc

/-- Witness for the amended C3: on the counterexample package the call
returns `maxSatisfying` of the missing target, which is null here. -/
theorem resolveVersion_latest_amended_witness :
    (resolveVersion "foo" "latest" cexUpstream [] 0).1
      = .ok (maxSatisfying ["1.0.0"] "9.9.9") := by
  have h := resolveVersion_latest_amended "foo" cexUpstream [] 0 cexVT "9.9.9"
    (by rfl) (by rfl) (by rfl)
  exact (h.2 (by rfl)).1

/-! ## Claim C2 -/

/-- Claim C2: when the metadata fetch succeeds, `getAvailableVersions`
returns a permutation of the package's version list, sorted so that each
version compares at most equal to every later one, where the comparator's
nonpositive values coincide with semver precedence not-greater on
parsable versions; an unknown package yields the empty list. -/
theorem getAvailableVersions_sorted (packageName : String) (u : Upstream)
    (c : Cache) (now : Nat) (res : Option VersionsTags)
    (hmiss : cacheGet c (versionsCacheKey packageName) now = none)
    (hfetch : fetchVersionsAndTags packageName u = .ok res) :
    (res = none → (getAvailableVersions packageName u c now).1 = .ok [])
    ∧ ∀ vt, res = some vt →
        (getAvailableVersions packageName u c now).1
            = .ok (sortJs byVersion vt.versions)
        ∧ (sortJs byVersion vt.versions).Perm vt.versions
        ∧ ((∀ v ∈ vt.versions, ∃ s, parseSemVer v = some s) →
            (sortJs byVersion vt.versions).Pairwise (fun a b => byVersion a b ≤ 0)
            ∧ ∀ a b x y, parseSemVer a = some x → parseSemVer b = some y →
                (byVersion a b ≤ 0 ↔ cmpSemVer x y ≠ .gt)) := by
  constructor
  · intro hres
    subst hres
    unfold getAvailableVersions
    rw [getVersionsAndTags_miss_notFound packageName u c now hmiss hfetch]
    rfl
  · intro vt hres
    subst hres
    refine ⟨?_, sortJs_perm byVersion vt.versions, ?_⟩
    · unfold getAvailableVersions
      rw [getVersionsAndTags_miss_found packageName u c now vt hmiss hfetch]
      rfl
    · intro hparse
      refine ⟨?_, ?_⟩
      · refine sortJs_pairwise byVersion (fun v => ∃ s, parseSemVer v = some s)
          ?_ ?_ vt.versions hparse
        · rintro x y ⟨sx, hx⟩ ⟨sy, hy⟩
          exact byVersion_total x y sx sy hx hy
        · rintro x y z ⟨sx, hx⟩ ⟨sy, hy⟩ ⟨sz, hz⟩ h1 h2
          exact byVersion_trans x y z sx sy sz hx hy hz h1 h2
      · intro a b x y hxa hyb
        exact byVersion_le_char a b x y hxa hyb

/-- Witness for C2: sorting the unsorted demonstration version list yields
ascending semver order. -/
theorem getAvailableVersions_sorted_witness :
    (getAvailableVersions "foo" demoUpstream2 [] 0).1
        = .ok (sortJs byVersion demoVT2.versions)
    ∧ sortJs byVersion demoVT2.versions = ["1.0.0", "1.2.0", "2.0.0"] := by
  have h := getAvailableVersions_sorted "foo" demoUpstream2 [] 0 (some demoVT2)
    (by rfl) (by rfl)
  exact ⟨(h.2 demoVT2 rfl).1, by rfl⟩

/-! ## Claim C4 -/

/-- Claim C4: a 200 metadata response yields the parsed JSON document, a
404 yields the not-found signal without being an error, and any other
status yields an error whose message carries the status code and the body
text — never a success value. -/
theorem fetchPackageInfo_statuses (packageName : String) (body : String) :
    (∀ j, jsonParse body = some j →
      fetchPackageInfo packageName (.response 200 body) = .ok (some j))
    ∧ fetchPackageInfo packageName (.response 404 body) = .ok none
    ∧ ∀ status, status ≠ 200 → status ≠ 404 →
        fetchPackageInfo packageName (.response status body)
            = .error (.http (fetchInfoErrorMessage packageName status body))
        ∧ ∀ r, fetchPackageInfo packageName (.response status body) ≠ .ok r := by
  refine ⟨?_, by rfl, ?_⟩
  · intro j hj
    unfold fetchPackageInfo
    dsimp only
    rw [if_pos (Eq.refl (200 : Nat)), hj]
  · intro status h200 h404
    have herr : fetchPackageInfo packageName (.response status body)
        = .error (.http (fetchInfoErrorMessage packageName status body)) := by
      unfold fetchPackageInfo
      dsimp only
      rw [if_neg h200, if_neg h404]
    refine ⟨herr, ?_⟩
    intro r hr
    rw [herr] at hr
    exact Except.noConfusion hr

/-- Witness for C4: statuses 200, 404 and 503 on a tiny document behave as
described. -/
theorem fetchPackageInfo_statuses_witness :
    fetchPackageInfo "foo" (.response 200 "\x7b\x7d") = .ok (some (.obj []))
    ∧ fetchPackageInfo "foo" (.response 404 "\x7b\x7d") = .ok none
    ∧ fetchPackageInfo "foo" (.response 503 "oops")
        = .error (.http (fetchInfoErrorMessage "foo" 503 "oops")) := by
  have h := fetchPackageInfo_statuses "foo" "\x7b\x7d"
  have h503 := fetchPackageInfo_statuses "foo" "oops"
  exact ⟨h.1 (.obj []) (by rfl), h.2.1,
    (h503.2.2 503 (by decide) (by decide)).1⟩

/-- The miss path of `getPackageConfig` on a successful fetch. -/
theorem getPackageConfig_miss_found (packageName version : String)
    (u : Upstream) (c : Cache) (now : Nat) (j : Json)
    (hmiss : cacheGet c (configCacheKey packageName version) now = none)
    (hfetch : fetchPackageConfig packageName version u = .ok (some j)) :
    getPackageConfig packageName version u c now =
      (.ok (some j),
        cacheSet c (configCacheKey packageName version) (jsonStringify j)
          oneMinute now) := by
  unfold getPackageConfig
  rw [hmiss]
  dsimp only
  rw [hfetch]

/-- The miss path of `getPackageConfig` on a not-found fetch. -/
theorem getPackageConfig_miss_notFound (packageName version : String)
    (u : Upstream) (c : Cache) (now : Nat)
    (hmiss : cacheGet c (configCacheKey packageName version) now = none)
    (hfetch : fetchPackageConfig packageName version u = .ok none) :
    getPackageConfig packageName version u c now =
      (.ok none,
        cacheSet c (configCacheKey packageName version) notFound
          (5 * oneMinute) now) := by
  unfold getPackageConfig
  rw [hmiss]
  dsimp only
  rw [hfetch]

/-! ## Claim C5 -/

/-- Claim C5: on a cache miss, a successfully derived versions/tags value
or filtered config is inserted with a 60-second TTL, while a not-found
outcome is inserted with a 5-minute TTL; an inserted entry expires at the
insertion time plus its TTL. -/
theorem cache_ttls (packageName version : String) (u : Upstream) (c : Cache)
    (now : Nat)
    (hmissV : cacheGet c (versionsCacheKey packageName) now = none)
    (hmissC : cacheGet c (configCacheKey packageName version) now = none) :
    (∀ vt, fetchVersionsAndTags packageName u = .ok (some vt) →
      (getVersionsAndTags packageName u c now).2
        = cacheSet c (versionsCacheKey packageName) (jsonStringify vt.toJson)
            (60 * 1000) now)
    ∧ (fetchVersionsAndTags packageName u = .ok none →
      (getVersionsAndTags packageName u c now).2
        = cacheSet c (versionsCacheKey packageName) notFound (5 * 60 * 1000) now)
    ∧ (∀ j, fetchPackageConfig packageName version u = .ok (some j) →
      (getPackageConfig packageName version u c now).2
        = cacheSet c (configCacheKey packageName version) (jsonStringify j)
            (60 * 1000) now)
    ∧ (fetchPackageConfig packageName version u = .ok none →
      (getPackageConfig packageName version u c now).2
        = cacheSet c (configCacheKey packageName version) notFound
            (5 * 60 * 1000) now)
    ∧ ∀ k v ttl, (cacheSet c k v ttl now).head? = some ⟨k, v, now + ttl⟩ := by
  refine ⟨?_, ?_, ?_, ?_, fun k v ttl => rfl⟩
  · intro vt hf
    rw [getVersionsAndTags_miss_found packageName u c now vt hmissV hf]
    rfl
  · intro hf
    rw [getVersionsAndTags_miss_notFound packageName u c now hmissV hf]
    rfl
  · intro j hf
    rw [getPackageConfig_miss_found packageName version u c now j hmissC hf]
    rfl
  · intro hf
    rw [getPackageConfig_miss_notFound packageName version u c now hmissC hf]
    rfl

/-- Witness for C5: the demonstration package is cached for 60 seconds,
and a 404-marked package for 5 minutes. -/
theorem cache_ttls_witness :
    (getVersionsAndTags "foo" demoUpstream [] 0).2
      = cacheSet [] (versionsCacheKey "foo") (jsonStringify demoVT.toJson)
          (60 * 1000) 0
    ∧ (getVersionsAndTags "bar" (.response 404 "") [] 0).2
      = cacheSet [] (versionsCacheKey "bar") notFound (5 * 60 * 1000) 0 := by
  have h1 := cache_ttls "foo" "1.0.0" demoUpstream [] 0 (by rfl) (by rfl)
  have h2 := cache_ttls "bar" "1.0.0" (.response 404 "") [] 0 (by rfl) (by rfl)
  exact ⟨h1.1 demoVT (by rfl), h2.2.1 (by rfl)⟩

/-! ## Claim C6 -/

/-- A version sub-document with underscore-prefixed and denylisted keys. -/
def cfgDoc : List (String × Json) :=
  [("name", .str "foo"), ("_id", .str "x"), ("scripts", .obj []),
   ("main", .str "index.js")]

/-- The metadata fields holding `cfgDoc` under version `1.0.0`. -/
def cfgFields : List (String × Json) :=
  [("versions", .obj [("1.0.0", .obj cfgDoc)])]

/-- A metadata document holding `cfgDoc` under version `1.0.0`. -/
def cfgBody : String :=
  "\x7b\"versions\":\x7b\"1.0.0\":\x7b\"name\":\"foo\",\"_id\":\"x\",\"scripts\":\x7b\x7d,\"main\":\"index.js\"\x7d\x7d\x7d"

/-- A successful metadata response for `cfgBody`. -/
def cfgUpstream : Upstream := .response 200 cfgBody

/-- Claim C6: the config that `getPackageConfig` derives from the version
sub-document is its filtering by `cleanPackageConfig`, which drops exactly
the underscore-prefixed and denylisted keys and keeps every other binding
unchanged. -/
theorem getPackageConfig_clean (packageName version : String) (u : Upstream)
    (c : Cache) (now : Nat) (fields vfields doc : List (String × Json))
    (hmiss : cacheGet c (configCacheKey packageName version) now = none)
    (hinfo : fetchPackageInfo packageName u = .ok (some (.obj fields)))
    (hver : fields.lookup "versions" = some (.obj vfields))
    (hsub : vfields.lookup version = some (.obj doc)) :
    (getPackageConfig packageName version u c now).1
        = .ok (some (.obj (cleanPackageConfig doc)))
    ∧ (∀ kv ∈ cleanPackageConfig doc,
        startsWithUnderscore kv.1 = false
        ∧ kv.1 ∉ packageConfigExcludeKeys ∧ kv ∈ doc)
    ∧ (∀ kv ∈ doc, startsWithUnderscore kv.1 = false →
        kv.1 ∉ packageConfigExcludeKeys → kv ∈ cleanPackageConfig doc) := by
  have hchar : ∀ kv : String × Json, kv ∈ cleanPackageConfig doc ↔
      kv ∈ doc ∧ startsWithUnderscore kv.1 = false
        ∧ kv.1 ∉ packageConfigExcludeKeys := by
    intro kv
    unfold cleanPackageConfig
    rw [List.mem_filter]
    simp
  have hfc : fetchPackageConfig packageName version u
      = .ok (some (.obj (cleanPackageConfig doc))) := by
    unfold fetchPackageConfig
    rw [hinfo]
    dsimp only
    rw [if_pos (show Json.truthy (Json.obj fields) = true from rfl)]
    rw [hver]
    dsimp only
    rw [hsub]
  refine ⟨?_, ?_, ?_⟩
  · rw [getPackageConfig_miss_found packageName version u c now _ hmiss hfc]
  · intro kv hkv
    obtain ⟨h1, h2, h3⟩ := (hchar kv).mp hkv
    exact ⟨h2, h3, h1⟩
  · intro kv h1 h2 h3
    exact (hchar kv).mpr ⟨h1, h2, h3⟩

/-- Witness for C6: the demonstration document loses `_id` and `scripts`
and keeps `name` and `main`. -/
theorem getPackageConfig_clean_witness :
    (getPackageConfig "foo" "1.0.0" cfgUpstream [] 0).1
      = .ok (some (.obj [("name", .str "foo"), ("main", .str "index.js")])) := by
  have h := getPackageConfig_clean "foo" "1.0.0" cfgUpstream [] 0 cfgFields
    [("1.0.0", .obj cfgDoc)] cfgDoc (by rfl) (by rfl) (by rfl) (by rfl)
  rw [h.1]
  rfl

/-! ## Claim C7 -/

/-- Splitting a separator-free list yields the list alone. -/
theorem splitCharAux_no_sep (sep : Char) :
    ∀ cs : List Char, sep ∉ cs → splitCharAux sep cs = (cs, []) := by
  intro cs
  induction cs with
  | nil => intro _; rfl
  | cons c rest ih =>
    intro h
    have hc : ¬ c = sep := by
      intro hcd
      subst hcd
      exact h (List.mem_cons_self c rest)
    simp only [splitCharAux]
    rw [if_neg hc, ih (fun hm => h (List.mem_cons_of_mem c hm))]

/-- Splitting at the first separator yields the prefix as first segment. -/
theorem splitCharAux_sep_append (sep : Char) :
    ∀ xs ys : List Char, sep ∉ xs →
      splitCharAux sep (xs ++ sep :: ys)
        = (xs, (splitCharAux sep ys).1 :: (splitCharAux sep ys).2) := by
  intro xs
  induction xs with
  | nil =>
    intro ys _
    simp only [List.nil_append, splitCharAux]
    rw [if_pos trivial]
  | cons x xs ih =>
    intro ys h
    have hx : ¬ x = sep := by
      intro hcd
      subst hcd
      exact h (List.mem_cons_self x xs)
    simp only [List.cons_append, splitCharAux, List.append_eq]
    rw [if_neg hx, ih ys (fun hm => h (List.mem_cons_of_mem x hm))]

/-- The tarball base name of a well-formed scoped name is the segment
after the slash. -/
theorem tarballName_scoped (scope pkg : List Char)
    (hscope : '/' ∉ scope) (hpkg : '/' ∉ pkg) :
    tarballName ('@' :: scope ++ '/' :: pkg) = pkg := by
  unfold tarballName
  rw [if_pos
    (show isScopedPackageName ('@' :: scope ++ '/' :: pkg) = true from rfl)]
  unfold splitChar
  dsimp only
  have h1 : splitCharAux '/' ('@' :: scope ++ '/' :: pkg)
      = ('@' :: scope, pkg :: []) := by
    have hshape : '@' :: scope ++ '/' :: pkg = '@' :: (scope ++ '/' :: pkg) := rfl
    rw [hshape]
    simp only [splitCharAux]
    rw [if_neg (show ¬ '@' = '/' by decide)]
    rw [splitCharAux_sep_append '/' scope pkg hscope]
    rw [splitCharAux_no_sep '/' pkg hpkg]
  rw [h1]
  rfl

/-- Claim C7: for a scoped name `@scope/pkg` the archive request path ends
in `/pkg-version.tgz`, the base name being the unscoped trailing segment,
while an unscoped name is its own base name. -/
theorem getPackage_tarball_basename (scope pkg version : List Char)
    (hscope : '/' ∉ scope) (hpkg : '/' ∉ pkg) :
    tarballName ('@' :: scope ++ '/' :: pkg) = pkg
    ∧ (∃ p, tarballPath ('@' :: scope ++ '/' :: pkg) version
        = p ++ '/' :: (pkg ++ '-' ::
            (version ++ ('.' :: 't' :: 'g' :: 'z' :: []))))
    ∧ ∀ name : List Char, isScopedPackageName name = false →
        tarballName name = name := by
  have hname := tarballName_scoped scope pkg hscope hpkg
  refine ⟨hname, ?_, ?_⟩
  · refine ⟨'/' :: (('@' :: scope ++ '/' :: pkg) ++ ('/' :: '-' :: [])), ?_⟩
    unfold tarballPath
    rw [hname]
    simp [List.append_assoc]
  · intro name hn
    unfold tarballName
    rw [hn]
    rfl

/-- Witness for C7: `@s/pkg` at version `1` produces a path ending in
`/pkg-1.tgz`. -/
theorem getPackage_tarball_basename_witness :
    tarballName ('@' :: ['s'] ++ '/' :: ['p', 'k', 'g']) = ['p', 'k', 'g']
    ∧ ∃ p, tarballPath ('@' :: ['s'] ++ '/' :: ['p', 'k', 'g']) ['1']
        = p ++ '/' :: (['p', 'k', 'g'] ++ '-' ::
            (['1'] ++ ('.' :: 't' :: 'g' :: 'z' :: []))) := by
  have h := getPackage_tarball_basename ['s'] ['p', 'k', 'g'] ['1']
    (by decide) (by decide)
  exact ⟨h.1, h.2.1⟩

/-! ## Claim C8 -/

/-- Claim C8: a transport failure or unexpected status surfaces from the
resolution and config operations as the fetch error itself, and the cache
after the failed call is the cache before it. -/
theorem failures_propagate_uncached (packageName version range : String)
    (u : Upstream) (c : Cache) (now : Nat) (e : NpmErr)
    (hmissV : cacheGet c (versionsCacheKey packageName) now = none)
    (hmissC : cacheGet c (configCacheKey packageName version) now = none) :
    (∀ msg, fetchPackageInfo packageName (.failure msg) = .error (.network msg))
    ∧ (∀ status body, status ≠ 200 → status ≠ 404 →
        fetchPackageInfo packageName (.response status body)
          = .error (.http (fetchInfoErrorMessage packageName status body)))
    ∧ (fetchVersionsAndTags packageName u = .error e →
        getVersionsAndTags packageName u c now = (.error e, c)
        ∧ resolveVersion packageName range u c now = (.error e, c)
        ∧ getAvailableVersions packageName u c now = (.error e, c))
    ∧ (fetchPackageConfig packageName version u = .error e →
        getPackageConfig packageName version u c now = (.error e, c)) := by
  refine ⟨fun msg => rfl, ?_, ?_, ?_⟩
  · intro status body h200 h404
    unfold fetchPackageInfo
    dsimp only
    rw [if_neg h200, if_neg h404]
  · intro hf
    have hgv : getVersionsAndTags packageName u c now = (.error e, c) := by
      unfold getVersionsAndTags
      rw [hmissV]
      dsimp only
      rw [hf]
    refine ⟨hgv, ?_, ?_⟩
    · unfold resolveVersion
      rw [hgv]
    · unfold getAvailableVersions
      rw [hgv]
  · intro hf
    unfold getPackageConfig
    rw [hmissC]
    dsimp only
    rw [hf]

/-- Witness for C8: a transport error and a 503 both come back as errors
and leave the empty cache empty. -/
theorem failures_propagate_uncached_witness :
    getVersionsAndTags "foo" (.failure "econnreset") [] 0
      = (.error (.network "econnreset"), [])
    ∧ getPackageConfig "foo" "1.0.0" (.response 503 "oops") [] 0
      = (.error (.http (fetchInfoErrorMessage "foo" 503 "oops")), []) := by
  have h1 := failures_propagate_uncached "foo" "1.0.0" "latest"
    (.failure "econnreset") [] 0 (.network "econnreset") (by rfl) (by rfl)
  have h2 := failures_propagate_uncached "foo" "1.0.0" "latest"
    (.response 503 "oops") [] 0 (.http (fetchInfoErrorMessage "foo" 503 "oops"))
    (by rfl) (by rfl)
  exact ⟨(h1.2.2.1 (by rfl)).1, h2.2.2.2 (by rfl)⟩

/-! ## Claim C9 -/

/-- Counterexample to claim C9: for the scoped name `@s/p`, the metadata
request path percent-encodes the slash, but the archive request path
embeds the raw name — it is not the path that the encoded name would
give. -/
theorem encoding_archive_counterexample :
    fetchInfoPath ['@', 's', '/', 'p'] = ['/', '@', 's', '%', '2', 'F', 'p']
    ∧ tarballPath ['@', 's', '/', 'p'] ['1']
        = ['/', '@', 's', '/', 'p', '/', '-', '/', 'p', '-', '1', '.',
           't', 'g', 'z']
    ∧ tarballPath ['@', 's', '/', 'p'] ['1']
        ≠ '/' :: (encodePackageName ['@', 's', '/', 'p'] ++
            ('/' :: '-' :: '/' :: (tarballName ['@', 's', '/', 'p']
              ++ '-' :: (['1'] ++ ('.' :: 't' :: 'g' :: 'z' :: []))))) := by
  refine ⟨by decide, by decide, by decide⟩

/-- Every uppercase hexadecimal digit is an unreserved character. -/
theorem hexCharUpper_unreserved (d : Nat) (hd : d < 16) :
    isUriUnreserved (hexCharUpper d) = true := by
  interval_cases d <;> decide

/-- Every code point is below the Unicode bound. -/
theorem char_toNat_lt (c : Char) : c.toNat < 1114112 := by
  have heq : c.toNat = c.val.toNat := rfl
  rcases c.valid with h | ⟨h1, h2⟩ <;> omega

/-- UTF-8 bytes of a valid code point are bytes. -/
theorem utf8Bytes_lt (n : Nat) (hn : n < 1114112) :
    ∀ b ∈ utf8Bytes n, b < 256 := by
  intro b hb
  unfold utf8Bytes at hb
  by_cases h1 : n < 128
  · rw [if_pos h1] at hb
    simp at hb
    omega
  · rw [if_neg h1] at hb
    by_cases h2 : n < 2048
    · rw [if_pos h2] at hb
      have hd : n / 64 ≤ 2047 / 64 := Nat.div_le_div_right (by omega)
      have hm : n % 64 < 64 := Nat.mod_lt _ (by omega)
      simp at hb
      rcases hb with hb | hb <;> omega
    · rw [if_neg h2] at hb
      by_cases h3 : n < 65536
      · rw [if_pos h3] at hb
        have hd : n / 4096 ≤ 65535 / 4096 := Nat.div_le_div_right (by omega)
        have hm1 : (n / 64) % 64 < 64 := Nat.mod_lt _ (by omega)
        have hm : n % 64 < 64 := Nat.mod_lt _ (by omega)
        simp at hb
        rcases hb with hb | hb | hb <;> omega
      · rw [if_neg h3] at hb
        have hd : n / 262144 ≤ 1114111 / 262144 := Nat.div_le_div_right (by omega)
        have hm2 : (n / 4096) % 64 < 64 := Nat.mod_lt _ (by omega)
        have hm1 : (n / 64) % 64 < 64 := Nat.mod_lt _ (by omega)
        have hm : n % 64 < 64 := Nat.mod_lt _ (by omega)
        simp at hb
        rcases hb with hb | hb | hb | hb <;> omega

/-- Every character the encoder emits is unreserved or part of a percent
escape. -/
theorem encodeURIComponentChars_safe (cs : List Char) :
    ∀ c ∈ encodeURIComponentChars cs, isUriUnreserved c = true ∨ c = '%' := by
  intro c hc
  unfold encodeURIComponentChars at hc
  rw [List.mem_flatMap] at hc
  obtain ⟨x, hx, hcx⟩ := hc
  unfold encodeUriChar at hcx
  by_cases hu : isUriUnreserved x
  · rw [if_pos hu] at hcx
    simp at hcx
    subst hcx
    exact Or.inl hu
  · rw [if_neg hu] at hcx
    rw [List.mem_flatMap] at hcx
    obtain ⟨b, hb, hcb⟩ := hcx
    have hblt : b < 256 := utf8Bytes_lt x.toNat (char_toNat_lt x) b hb
    unfold percentByte at hcb
    simp at hcb
    rcases hcb with hcb | hcb | hcb
    · exact Or.inr hcb
    · subst hcb
      exact Or.inl (hexCharUpper_unreserved (b / 16) (by omega))
    · subst hcb
      exact Or.inl (hexCharUpper_unreserved (b % 16) (by omega))

/-- Claim C9, amended: the metadata request path percent-encodes the
package identifier — a leading scope marker is kept verbatim before the
encoding of the rest, and every emitted encoder character is unreserved
or belongs to a percent escape — while the archive request path embeds
the raw, unencoded identifier. -/
theorem encoding_paths_amended (packageName version : List Char) :
    (isScopedPackageName packageName = true →
      fetchInfoPath packageName
        = '/' :: '@' :: encodeURIComponentChars packageName.tail)
    ∧ (isScopedPackageName packageName = false →
      fetchInfoPath packageName = '/' :: encodeURIComponentChars packageName)
    ∧ (∀ c ∈ encodeURIComponentChars packageName,
        isUriUnreserved c = true ∨ c = '%')
    ∧ tarballPath packageName version
        = '/' :: (packageName ++ ('/' :: '-' :: '/' ::
            (tarballName packageName ++ '-' ::
              (version ++ ('.' :: 't' :: 'g' :: 'z' :: []))))) := by
  refine ⟨?_, ?_, encodeURIComponentChars_safe packageName, rfl⟩
  · intro h
    unfold fetchInfoPath encodePackageName
    rw [h]
    rfl
  · intro h
    unfold fetchInfoPath encodePackageName
    rw [h]
    rfl

/-- Witness for the amended C9: the scoped demonstration name keeps its
marker and encodes the rest; an unscoped name is encoded whole. -/
theorem encoding_paths_amended_witness :
    fetchInfoPath ['@', 's', '/', 'p']
      = '/' :: '@' :: encodeURIComponentChars ['s', '/', 'p']
    ∧ fetchInfoPath ['f', 'o', 'o']
      = '/' :: encodeURIComponentChars ['f', 'o', 'o'] := by
  have h1 := encoding_paths_amended ['@', 's', '/', 'p'] ['1']
  have h2 := encoding_paths_amended ['f', 'o', 'o'] ['1']
  exact ⟨h1.1 (by decide), h2.2.1 (by decide)⟩

/-! ## Claim C10 -/

/-- A decimal numeral is never empty. -/
theorem natDecimal_ne_nil (n : Nat) : natDecimal n ≠ [] := by
  unfold natDecimal natChars
  by_cases h : n < 10
  · rw [if_pos h]
    exact List.cons_ne_nil _ _
  · rw [if_neg h]
    intro hc
    exact List.cons_ne_nil _ _ (List.append_eq_nil.mp hc).2

/-- An integer numeral is never empty. -/
theorem intChars_ne_nil (i : Int) : intChars i ≠ [] := by
  unfold intChars
  by_cases h : i < 0
  · rw [if_pos h]
    exact List.cons_ne_nil _ _
  · rw [if_neg h]
    exact natDecimal_ne_nil _

/-- The writer never renders a value as the empty character list. -/
theorem jwrite_ne_nil (j : Json) : jwrite j ≠ [] := by
  cases j with
  | null => simp only [jwrite]; exact List.cons_ne_nil _ _
  | bool b =>
    cases b <;> simp only [jwrite] <;> exact List.cons_ne_nil _ _
  | num m e =>
    simp only [jwrite]
    unfold writeNum
    intro hc
    exact intChars_ne_nil m (List.append_eq_nil.mp hc).1
  | str s =>
    simp only [jwrite]
    unfold writeStr
    exact List.cons_ne_nil _ _
  | arr items => simp only [jwrite]; exact List.cons_ne_nil _ _
  | obj fields => simp only [jwrite]; exact List.cons_ne_nil _ _

/-- A serialised value is never the not-found marker. -/
theorem jsonStringify_not_notFound (j : Json) :
    (jsonStringify j == notFound) = false := by
  by_cases h : jsonStringify j = notFound
  · have hdata : jwrite j = ([] : List Char) := congrArg String.data h
    exact absurd hdata (jwrite_ne_nil j)
  · exact beq_eq_false_iff_ne.mpr h

/-- Reading a key straight after setting it yields its value while the
entry is unexpired. -/
theorem cacheGet_cacheSet (c : Cache) (k v : String) (ttl now now2 : Nat)
    (h : now2 ≤ now + ttl) :
    cacheGet (cacheSet c k v ttl now) k now2 = some v := by
  unfold cacheGet cacheSet
  simp only [List.find?, beq_self_eq_true]
  rw [if_pos h]

/-- Claim C10: serialisation round-trips every value, so while the entry
is fresh a cache hit returns exactly the result computed on the original
miss, for both the versions/tags and the config operation. -/
theorem cache_hit_roundtrip (packageName version : String) (u : Upstream)
    (c : Cache) (now now2 : Nat) (vt : VersionsTags) (j : Json)
    (hmissV : cacheGet c (versionsCacheKey packageName) now = none)
    (hmissC : cacheGet c (configCacheKey packageName version) now = none)
    (hfetchV : fetchVersionsAndTags packageName u = .ok (some vt))
    (hfetchC : fetchPackageConfig packageName version u = .ok (some j))
    (hfresh : now2 ≤ now + oneMinute) :
    (∀ d : Json, jsonParse (jsonStringify d) = some d)
    ∧ (getVersionsAndTags packageName u
          (getVersionsAndTags packageName u c now).2 now2).1
        = (getVersionsAndTags packageName u c now).1
    ∧ (getPackageConfig packageName version u
          (getPackageConfig packageName version u c now).2 now2).1
        = (getPackageConfig packageName version u c now).1 := by
  have hgv := getVersionsAndTags_miss_found packageName u c now vt hmissV hfetchV
  have hgc := getPackageConfig_miss_found packageName version u c now j hmissC
    hfetchC
  refine ⟨jsonParse_stringify, ?_, ?_⟩
  · rw [hgv]
    dsimp only
    unfold getVersionsAndTags
    rw [cacheGet_cacheSet c (versionsCacheKey packageName)
      (jsonStringify vt.toJson) oneMinute now now2 hfresh]
    dsimp only
    have hcond : ¬ ((jsonStringify vt.toJson == notFound) = true) := by
      rw [jsonStringify_not_notFound]
      decide
    rw [if_neg hcond]
    rw [jsonParse_stringify vt.toJson]
    dsimp only
    rw [VersionsTags.fromJson_toJson vt]
  · rw [hgc]
    dsimp only
    unfold getPackageConfig
    rw [cacheGet_cacheSet c (configCacheKey packageName version)
      (jsonStringify j) oneMinute now now2 hfresh]
    dsimp only
    have hcond : ¬ ((jsonStringify j == notFound) = true) := by
      rw [jsonStringify_not_notFound]
      decide
    rw [if_neg hcond]
    rw [jsonParse_stringify j]

/-- Witness for C10: hitting the cache one tick after the miss reproduces
both demonstration results. -/
theorem cache_hit_roundtrip_witness :
    (getVersionsAndTags "foo" demoUpstream
        (getVersionsAndTags "foo" demoUpstream [] 0).2 1).1
      = (getVersionsAndTags "foo" demoUpstream [] 0).1
    ∧ (getPackageConfig "foo" "1.0.0" demoUpstream
        (getPackageConfig "foo" "1.0.0" demoUpstream [] 0).2 1).1
      = (getPackageConfig "foo" "1.0.0" demoUpstream [] 0).1 := by
  have h := cache_hit_roundtrip "foo" "1.0.0" demoUpstream [] 0 1 demoVT
    (.obj [("name", .str "foo")]) (by rfl) (by rfl) (by rfl) (by rfl) (by decide)
  exact ⟨h.2.1, h.2.2⟩

end Unpkg
